import Mathlib

/-!
Verification of the RashPlayer-C core (vision engine + logic brain) against its
natural-language specification.

The C sources are shallowly embedded:
  * machine integers become `Nat`/`Int`; a C cast `(uint8_t) e` of an `int`
    expression becomes `(e % 256).toNat` (written `u8cast`); C `int` division
    (truncation toward zero) becomes `Int.tdiv`;
  * pixel buffers become functions `Int -> Int -> Pixel` (alpha is ignored by
    every detector, so a pixel is its RGB bytes);
  * the float NCC score of the template matcher is represented exactly by its
    square as a rational: the C score is `P / sqrt(F*T)` with `P,F,T` sums of
    products of non-negative gray values, so all the comparisons the code makes
    (`score > best`, `best > 0.5`, `best >= threshold`) are faithfully mirrored
    on squares (`P^2/(F*T) > bestSq`, `bestSq > 1/4`, `bestSq >= threshold^2`),
    all quantities being non-negative.  Gray values are kept as `r+g+b`
    (3 times the C `(r+g+b)/3.0f` average), which leaves the score unchanged;
    float rounding is not modelled (the spec mandates the scalar formula up to
    float rounding);
  * `clock_gettime` becomes an explicit clock stream `tick : Nat -> Int`, the
    n-th call of `get_time_ns` inside an entry point reading `tick n`.
-/

namespace RashPlayer

/-- One RGBA pixel with the alpha byte dropped (no detector reads alpha). -/
structure Pixel where
  r : Nat
  g : Nat
  b : Nat
deriving DecidableEq, Repr

/-- Point2D from shared_bridge.h (int32 coordinates). -/
structure Point2D where
  x : Int
  y : Int
deriving DecidableEq, Repr

/-- Rect2D from shared_bridge.h. -/
structure Rect2D where
  x : Int
  y : Int
  width : Int
  height : Int
deriving DecidableEq, Repr

/-- ColorHSV from shared_bridge.h (three bytes). -/
structure ColorHSV where
  h : Nat
  s : Nat
  v : Nat
deriving DecidableEq, Repr

/-- HSV bytes produced by rgb_to_hsv. -/
structure HSV where
  h : Nat
  s : Nat
  v : Nat
deriving DecidableEq, Repr

/-- The C cast `(uint8_t) e` of an int expression: reduce modulo 256. -/
def u8cast (e : Int) : Nat := (e % 256).toNat

/-- Integer rgb_to_hsv from src/c_core/vision_engine.c lines 44-62.
`uint8_t max = r > g ? (r > b ? r : b) : (g > b ? g : b)` etc.; the hue
branches compute in C `int` arithmetic (truncating division `Int.tdiv`) and
cast the result back to `uint8_t`. -/
def rgb_to_hsv (r g b : Nat) : HSV :=
  let maxv : Nat := if r > g then (if r > b then r else b) else (if g > b then g else b)
  let minv : Nat := if r < g then (if r < b then r else b) else (if g < b then g else b)
  let delta : Nat := maxv - minv
  let v : Nat := maxv
  let s : Nat := if maxv = 0 then 0 else u8cast (255 * (delta : Int) / (maxv : Int))
  let h : Nat :=
    if delta = 0 then 0
    else if maxv = r then
      u8cast (Int.tdiv (30 * ((g : Int) - (b : Int))) (delta : Int) + (if g < b then 180 else 0))
    else if maxv = g then
      u8cast (Int.tdiv (30 * ((b : Int) - (r : Int))) (delta : Int) + 60)
    else
      u8cast (Int.tdiv (30 * ((r : Int) - (g : Int))) (delta : Int) + 120)
  ⟨h, s, v⟩

/-- Reference cmax from the spec: `compute cmax, cmin, delta = cmax - cmin`. -/
def specCmax (r g b : Nat) : Nat := max r (max g b)

/-- Reference cmin from the spec. -/
def specCmin (r g b : Nat) : Nat := min r (min g b)

/-- Reference saturation from the spec: `s = 0 if cmax = 0 else
floor(255 * delta / cmax)`. -/
def specSat (r g b : Nat) : Nat :=
  if specCmax r g b = 0 then 0
  else 255 * (specCmax r g b - specCmin r g b) / specCmax r g b

end RashPlayer

namespace RashPlayer

/-- Truncating division of `30*n` by a positive `d` stays within `[-30, 30]`
whenever `-d <= n <= d`. -/
theorem tdiv30_bound {n d : Int} (hd : 0 < d) (h1 : -d ≤ n) (h2 : n ≤ d) :
    -30 ≤ Int.tdiv (30 * n) d ∧ Int.tdiv (30 * n) d ≤ 30 := by
  rcases le_or_lt 0 n with hn | hn
  · have hnn : (0 : Int) ≤ 30 * n := by positivity
    rw [Int.tdiv_eq_ediv hnn hd.le]
    constructor
    · have := Int.ediv_nonneg hnn hd.le
      omega
    · have h30 : 30 * n ≤ 30 * d := by omega
      have := Int.ediv_le_ediv hd h30
      rw [Int.mul_ediv_cancel 30 hd.ne'] at this
      exact this
  · have hrw : 30 * n = -(30 * (-n)) := by ring
    rw [hrw, Int.neg_tdiv]
    have hnn : (0 : Int) ≤ 30 * (-n) := by nlinarith
    rw [Int.tdiv_eq_ediv hnn hd.le]
    constructor
    · have h30 : 30 * (-n) ≤ 30 * d := by omega
      have := Int.ediv_le_ediv hd h30
      rw [Int.mul_ediv_cancel 30 hd.ne'] at this
      omega
    · have := Int.ediv_nonneg hnn hd.le
      omega

/-- The nested conditional computing `max` in rgb_to_hsv equals `max`. -/
theorem maxv_eq (r g b : Nat) :
    (if r > g then (if r > b then r else b) else (if g > b then g else b)) =
      max r (max g b) := by
  split_ifs <;> omega

/-- The nested conditional computing `min` in rgb_to_hsv equals `min`. -/
theorem minv_eq (r g b : Nat) :
    (if r < g then (if r < b then r else b) else (if g < b then g else b)) =
      min r (min g b) := by
  split_ifs <;> omega

/-- C1 (counterexample): at the RGB triple (255, 0, 1) the integer
rgb_to_hsv of the vision engine returns hue byte 180, which lies outside the
range [0, 179] that the claim asserts for both implementations. -/
theorem C1_counterexample :
    (rgb_to_hsv 255 0 1).h = 180 ∧ ¬ (rgb_to_hsv 255 0 1).h ≤ 179 := by
  decide

/-- Truncating division of a nonpositive number by a nonnegative one is nonpositive. -/
theorem tdiv_nonpos_left {a b : Int} (ha : a ≤ 0) (hb : 0 ≤ b) : a.tdiv b ≤ 0 := by
  have hrw : a = -(-a) := by ring
  rw [hrw, Int.neg_tdiv]
  have := Int.tdiv_nonneg (by omega : (0 : Int) ≤ -a) hb
  omega

/-- C1 (amended): for every RGB triple the integer rgb_to_hsv returns
`v = cmax` and `s = 0 if cmax = 0 else floor(255*delta/cmax)` exactly as the
spec's reference demands, but its truncating-integer hue is only guaranteed
to lie in [0, 180]: the value 180 is reached (see the counterexample), so the
bytes are not always those of a [0,179]-valued reference. -/
theorem C1_amended_rgb_to_hsv (r g b : Nat) :
    (rgb_to_hsv r g b).v = specCmax r g b ∧
    (rgb_to_hsv r g b).s = specSat r g b ∧
    (rgb_to_hsv r g b).h ≤ 180 := by
  have hM := maxv_eq r g b
  have hm := minv_eq r g b
  unfold rgb_to_hsv
  rw [hM, hm]
  set M := max r (max g b) with hMdef
  set m := min r (min g b) with hmdef
  have hrM : r ≤ M := le_max_left _ _
  have hgM : g ≤ M := le_trans (le_max_left _ _) (le_max_right _ _)
  have hbM : b ≤ M := le_trans (le_max_right _ _) (le_max_right _ _)
  have hmr : m ≤ r := min_le_left _ _
  have hmg : m ≤ g := le_trans (min_le_right _ _) (min_le_left _ _)
  have hmb : m ≤ b := le_trans (min_le_right _ _) (min_le_right _ _)
  have hmM : m ≤ M := le_trans hmr hrM
  refine ⟨rfl, ?_, ?_⟩
  · -- saturation matches the reference formula
    unfold specSat specCmax specCmin
    rw [← hMdef, ← hmdef]
    by_cases hM0 : M = 0
    · simp [hM0]
    · have hMpos : 0 < M := Nat.pos_of_ne_zero hM0
      have hq : (255 : Int) * ((M - m : Nat) : Int) / ((M : Nat) : Int) =
          ((255 * (M - m) / M : Nat) : Int) := by
        push_cast
        ring_nf
      have hle : 255 * (M - m) / M ≤ 255 := by
        calc 255 * (M - m) / M ≤ 255 * M / M :=
              Nat.div_le_div_right (Nat.mul_le_mul_left _ (Nat.sub_le _ _))
          _ = 255 := Nat.mul_div_cancel 255 hMpos
      simp only [hM0, if_false, hq]
      generalize 255 * (M - m) / M = q at hle ⊢
      unfold u8cast
      omega
  · -- hue lies in [0, 180]
    by_cases hd0 : M - m = 0
    · simp [hd0]
    · have hdpos : (0 : Int) < ((M - m : Nat) : Int) := by
        have := Nat.pos_of_ne_zero hd0
        exact_mod_cast this
      simp only [hd0, if_false]
      split_ifs with h1 h2 h3
      · -- max = r, g < b: hue = tdiv + 180 with tdiv in [-30, 0]
        rcases tdiv30_bound (n := (g : Int) - (b : Int)) hdpos (by omega) (by omega)
          with ⟨hlo, _⟩
        have hsign : Int.tdiv (30 * ((g : Int) - (b : Int))) ((M - m : Nat) : Int) ≤ 0 :=
          tdiv_nonpos_left (by omega) (by omega)
        unfold u8cast
        omega
      · -- max = r, g >= b: hue = tdiv + 0 with tdiv in [0, 30]
        rcases tdiv30_bound (n := (g : Int) - (b : Int)) hdpos (by omega) (by omega)
          with ⟨_, hhi⟩
        have hsign : 0 ≤ Int.tdiv (30 * ((g : Int) - (b : Int))) ((M - m : Nat) : Int) :=
          Int.tdiv_nonneg (by omega) (by omega)
        unfold u8cast
        omega
      · -- max = g: hue = tdiv + 60 with tdiv in [-30, 30]
        rcases tdiv30_bound (n := (b : Int) - (r : Int)) hdpos (by omega) (by omega)
          with ⟨hlo, hhi⟩
        unfold u8cast
        omega
      · -- max = b: hue = tdiv + 120 with tdiv in [-30, 30]
        rcases tdiv30_bound (n := (r : Int) - (g : Int)) hdpos (by omega) (by omega)
          with ⟨hlo, hhi⟩
        unfold u8cast
        omega

/-! ## Blackboard (logic_brain.c, set_variable / get_variable) -/

/-- The variable table: ordered list of (name, int32 value) entries, names
stored as character lists (logic_brain.c `Variable g_variables[64]`). -/
abbrev VarTable := List (List Char × Int)

/-- First pass of set_variable (logic_brain.c lines 49-54): replace the value
of the first entry whose stored name compares equal (strcmp, full string,
case sensitive); `none` when no entry matches. -/
def replaceVar : VarTable → List Char → Int → Option VarTable
  | [], _, _ => none
  | (n, w) :: rest, name, v =>
    if n = name then some ((n, v) :: rest)
    else
      match replaceVar rest name v with
      | some r => some ((n, w) :: r)
      | none => none

/-- set_variable from logic_brain.c lines 47-65: replace the first matching
entry, otherwise append a new entry whose name strncpy truncates to 31
characters; when 64 entries are live and the name is absent the call fails
and the table is unchanged (C returns -1). -/
def set_variable (vars : VarTable) (name : List Char) (v : Int) : VarTable :=
  match replaceVar vars name v with
  | some vs => vs
  | none => if 64 ≤ vars.length then vars else vars ++ [(name.take 31, v)]

/-- get_variable from logic_brain.c lines 68-75: value of the first entry
whose name compares equal, 0 when absent. -/
def get_variable : VarTable → List Char → Int
  | [], _ => 0
  | (n, w) :: rest, name => if n = name then w else get_variable rest name

/-- When the replace pass fires, reading the name back gives the new value. -/
theorem get_replaceVar {vars : VarTable} {name : List Char} {v : Int} {r : VarTable}
    (h : replaceVar vars name v = some r) : get_variable r name = v := by
  induction vars generalizing r with
  | nil => simp [replaceVar] at h
  | cons e rest ih =>
    obtain ⟨n, w⟩ := e
    by_cases hn : n = name
    · simp [replaceVar, hn] at h
      subst h
      simp [get_variable]
    · simp only [replaceVar, hn, if_false] at h
      cases hrec : replaceVar rest name v with
      | none => rw [hrec] at h; simp at h
      | some r' =>
        rw [hrec] at h
        simp at h
        subst h
        simp [get_variable, hn, ih hrec]

/-- When the replace pass misses, no stored name equals the searched one. -/
theorem replaceVar_none {vars : VarTable} {name : List Char} {v : Int}
    (h : replaceVar vars name v = none) : ∀ e ∈ vars, e.1 ≠ name := by
  induction vars with
  | nil => simp
  | cons e rest ih =>
    obtain ⟨n, w⟩ := e
    by_cases hn : n = name
    · simp [replaceVar, hn] at h
    · simp only [replaceVar, hn, if_false] at h
      cases hrec : replaceVar rest name v with
      | none =>
        intro e he
        rcases List.mem_cons.mp he with rfl | hmem
        · exact hn
        · exact ih hrec e hmem
      | some r' => rw [hrec] at h; simp at h

/-- Appending an entry for an absent name makes it readable. -/
theorem get_append_absent {vars : VarTable} {name : List Char} {v : Int}
    (h : ∀ e ∈ vars, e.1 ≠ name) :
    get_variable (vars ++ [(name, v)]) name = v := by
  induction vars with
  | nil => simp [get_variable]
  | cons e rest ih =>
    obtain ⟨n, w⟩ := e
    have hn : n ≠ name := h (n, w) (List.mem_cons_self _ _)
    simp only [List.cons_append, get_variable, hn, if_false]
    exact ih fun e he => h e (List.mem_cons_of_mem _ he)

/-- C7 (counterexample): for a 32-character name, set followed by get returns
0 rather than the stored value, because strncpy stores only the first 31
characters and strcmp then never matches the full name again. -/
theorem C7_counterexample :
    get_variable (set_variable [] (List.replicate 32 'a') 7) (List.replicate 32 'a') = 0 ∧
    (0 : Int) ≠ 7 := by
  constructor
  · rfl
  · decide

/-- C7 (amended): with fewer than 64 live names, set(name, value) replaces
the stored value when the name already exists and otherwise appends it, and
a subsequent get(name) returns the value most recently set — for every name
of at most 31 characters.  For longer names the stored name is the 31-char
truncation, so get(name) finds nothing (see the counterexample). -/
theorem C7_amended_set_get (vars : VarTable) (name : List Char) (v : Int)
    (hlen : vars.length < 64) (hname : name.length ≤ 31) :
    get_variable (set_variable vars name v) name = v := by
  unfold set_variable
  cases hrep : replaceVar vars name v with
  | some r => exact get_replaceVar hrep
  | none =>
    have habs := replaceVar_none hrep
    have hfull : ¬ 64 ≤ vars.length := by omega
    simp only [hfull, if_false]
    rw [List.take_of_length_le hname]
    exact get_append_absent habs

/-- C7 (witness): a concrete instance of the amended round trip. -/
theorem C7_witness :
    ([] : VarTable).length < 64 ∧ (['x'] : List Char).length ≤ 31 ∧
    get_variable (set_variable [] ['x'] 5) ['x'] = 5 :=
  ⟨by decide, by decide, C7_amended_set_get [] ['x'] 5 (by decide) (by decide)⟩

/-! ## Color-blob detector (vision_engine.c, find_color_scalar) -/

/-- Region clamping shared by find_color_scalar and vision_detect_edge
(vision_engine.c lines 259-264 and 465-471): a non-positive origin is raised
to 0, a non-positive width/height defaults to the full frame, and the right
and bottom are clamped to the frame — the origin shift does NOT shrink the
width/height, which is what claim C5 turns out to miss. -/
def scanClamp (width height : Int) (region : Rect2D) : Rect2D :=
  let rx := if region.x > 0 then region.x else 0
  let ry := if region.y > 0 then region.y else 0
  let rw0 := if region.width > 0 then region.width else width
  let rh0 := if region.height > 0 then region.height else height
  let rw := if rx + rw0 > width then width - rx else rw0
  let rh := if ry + rh0 > height then height - ry else rh0
  ⟨rx, ry, rw, rh⟩

/-- The values of `for (v = 0; v < n; v++)` as integers. -/
def intRange (n : Nat) : List Int := (List.range n).map Nat.cast

/-- Membership in intRange is the interval condition. -/
theorem mem_intRange {n : Nat} {x : Int} : x ∈ intRange n ↔ 0 ≤ x ∧ x < (n : Int) := by
  simp only [intRange, List.mem_map, List.mem_range]
  constructor
  · rintro ⟨a, ha, rfl⟩
    omega
  · rintro ⟨h0, hn⟩
    exact ⟨x.toNat, by omega, by omega⟩

/-- Row-major coordinates of the scan loops `for y ... for x ...`. -/
def scanCoords (rx ry rw rh : Int) : List (Int × Int) :=
  (intRange rh.toNat).flatMap (fun dy =>
    (intRange rw.toNat).map (fun dx => (rx + dx, ry + dy)))

/-- Loop-body tolerance test of find_color_scalar (lines 274-283): convert
the pixel to HSV, wrap the hue distance (`if (dh > 90) dh = 180 - dh`), and
compare each distance against the tolerance. -/
def colorMatch (target : ColorHSV) (tolerance : Int) (p : Pixel) : Bool :=
  let c := rgb_to_hsv p.r p.g p.b
  let dh0 : Int := |(c.h : Int) - (target.h : Int)|
  let dh : Int := if dh0 > 90 then 180 - dh0 else dh0
  let ds : Int := |(c.s : Int) - (target.s : Int)|
  let dv : Int := |(c.v : Int) - (target.v : Int)|
  decide (dh ≤ tolerance ∧ ds ≤ tolerance ∧ dv ≤ tolerance)

/-- Accumulator of the find_color_scalar loop: match_count, sum_x, sum_y. -/
structure ColorAcc where
  count : Nat
  sumX : Int
  sumY : Int
deriving DecidableEq, Repr

/-- The find_color_scalar double loop (lines 270-290) with its early exit:
a matching pixel bumps the count and sums, and `match_count >= max_matches`
jumps out of both loops. -/
def colorLoop (test : Int × Int → Bool) (cap : Int) :
    List (Int × Int) → ColorAcc → ColorAcc
  | [], acc => acc
  | p :: rest, acc =>
    if test p then
      let acc' : ColorAcc := ⟨acc.count + 1, acc.sumX + p.1, acc.sumY + p.2⟩
      if (acc'.count : Int) ≥ cap then acc'
      else colorLoop test cap rest acc'
    else colorLoop test cap rest acc

/-- find_color_scalar from vision_engine.c lines 256-299: clamp the region,
scan row-major with early exit, and report the match count together with the
integer centroid of the matched pixels (written only when count > 0; the C
out-parameter is untouched otherwise, modelled as `none`). -/
def find_color_scalar (frame : Int → Int → Pixel) (width height : Int)
    (region : Rect2D) (target : ColorHSV) (tolerance : Int) (max_matches : Int) :
    Nat × Option Point2D :=
  let rc := scanClamp width height region
  let acc := colorLoop (fun p => colorMatch target tolerance (frame p.1 p.2))
      max_matches (scanCoords rc.x rc.y rc.width rc.height) ⟨0, 0, 0⟩
  (acc.count,
   if acc.count > 0 then
     some ⟨Int.tdiv acc.sumX (acc.count : Int), Int.tdiv acc.sumY (acc.count : Int)⟩
   else none)

/-- vision_find_color_region from vision_engine.c lines 385-398 (scalar
path): a null region means the full frame; the cap is fixed at 10000. -/
def vision_find_color_region (frame : Int → Int → Pixel) (width height : Int)
    (region : Option Rect2D) (color : ColorHSV) (tolerance : Int) :
    Nat × Option Point2D :=
  find_color_scalar frame width height (region.getD ⟨0, 0, width, height⟩)
    color tolerance 10000

/-- Modelled from the spec's words for the C5 counterexample: "a region
extending past the frame is clipped before scanning" — the geometric
intersection of the region (with non-positive width/height defaulting to the
full frame) and the frame rectangle. -/
def specClippedCount (frame : Int → Int → Pixel) (width height : Int)
    (region : Rect2D) (target : ColorHSV) (tolerance : Int) : Nat :=
  let w0 := if region.width > 0 then region.width else width
  let h0 := if region.height > 0 then region.height else height
  let x0 := max region.x 0
  let y0 := max region.y 0
  let x1 := min (region.x + w0) width
  let y1 := min (region.y + h0) height
  (scanCoords x0 y0 (x1 - x0) (y1 - y0)).countP
    (fun p => colorMatch target tolerance (frame p.1 p.2))

/-- C5 (counterexample): on a 4x1 all-black frame with the all-zero HSV
target (every pixel matches), the region (x=-2, y=0, w=3, h=1) yields count 3
— the code clamps the origin to 0 but keeps the width, scanning columns
0..2 — while clipping the region to the frame as the claim states would scan
only column 0 and yield count 1. -/
theorem C5_counterexample :
    (find_color_scalar (fun _ _ => ⟨0, 0, 0⟩) 4 1 ⟨-2, 0, 3, 1⟩ ⟨0, 0, 0⟩ 0 10000).1 = 3 ∧
    specClippedCount (fun _ _ => ⟨0, 0, 0⟩) 4 1 ⟨-2, 0, 3, 1⟩ ⟨0, 0, 0⟩ 0 = 1 ∧
    (3 : Nat) ≠ 1 := by
  refine ⟨by decide, by decide, by decide⟩

/-- Count characterization of the early-exit loop: starting below the cap it
returns the capped number of matches. -/
theorem colorLoop_count (test : Int × Int → Bool) (cap : Int)
    (L : List (Int × Int)) (acc : ColorAcc) (hacc : (acc.count : Int) < cap) :
    (colorLoop test cap L acc).count = min cap.toNat (acc.count + L.countP test) := by
  induction L generalizing acc with
  | nil =>
    simp only [colorLoop, List.countP_nil]
    omega
  | cons p rest ih =>
    simp only [colorLoop, List.countP_cons]
    cases hp : test p with
    | false =>
      simp only [Bool.false_eq_true, if_false, add_zero]
      exact ih acc hacc
    | true =>
      simp only [if_true]
      by_cases hstop : cap ≤ ((acc.count + 1 : Nat) : Int)
      · rw [if_pos hstop]
        push_cast at hstop
        simp only []
        omega
      · rw [if_neg hstop]
        push_cast at hstop
        rw [ih _ (by push_cast; omega)]
        simp only []
        omega

/-- Full characterization of the loop when the cap is never reached. -/
theorem colorLoop_no_cap (test : Int × Int → Bool) (cap : Int)
    (L : List (Int × Int)) (acc : ColorAcc)
    (h : ((acc.count + L.countP test : Nat) : Int) < cap) :
    colorLoop test cap L acc =
      ⟨acc.count + L.countP test,
       acc.sumX + ((L.filter test).map (fun p => p.1)).sum,
       acc.sumY + ((L.filter test).map (fun p => p.2)).sum⟩ := by
  induction L generalizing acc with
  | nil => simp [colorLoop]
  | cons p rest ih =>
    simp only [colorLoop, List.countP_cons, List.filter_cons] at h ⊢
    cases hp : test p with
    | false =>
      simp only [hp] at h
      simp only [Bool.false_eq_true, if_false, add_zero] at h ⊢
      exact ih acc h
    | true =>
      simp only [hp, if_true] at h ⊢
      have hcount : List.countP test rest + 1 = 1 + List.countP test rest := by omega
      have hnostop : ¬ cap ≤ ((acc.count + 1 : Nat) : Int) := by
        push_cast at h ⊢
        omega
      rw [if_neg hnostop]
      rw [ih ⟨acc.count + 1, acc.sumX + p.1, acc.sumY + p.2⟩ (by push_cast at h ⊢; omega)]
      simp only [List.map_cons, List.sum_cons]
      congr 1
      · omega
      · ring
      · ring

/-- Full characterization of the early-exit loop including the capped case:
starting below the cap, the loop accumulates exactly the first
(cap - count) matching pixels in scan order. -/
theorem colorLoop_take (test : Int × Int → Bool) (cap : Int)
    (L : List (Int × Int)) :
    ∀ acc : ColorAcc, (acc.count : Int) < cap →
      colorLoop test cap L acc =
        ⟨acc.count + ((L.filter test).take (cap - acc.count).toNat).length,
         acc.sumX + (((L.filter test).take (cap - acc.count).toNat).map
           (fun p => p.1)).sum,
         acc.sumY + (((L.filter test).take (cap - acc.count).toNat).map
           (fun p => p.2)).sum⟩ := by
  induction L with
  | nil =>
    intro acc hacc
    simp [colorLoop]
  | cons p rest ih =>
    intro acc hacc
    simp only [colorLoop, List.filter_cons]
    cases hp : test p with
    | false =>
      simp only [Bool.false_eq_true, if_false]
      exact ih acc hacc
    | true =>
      simp only [if_true]
      by_cases hstop : cap ≤ ((acc.count + 1 : Nat) : Int)
      · rw [if_pos hstop]
        have hk : (cap - (acc.count : Int)).toNat = 0 + 1 := by
          push_cast at hstop
          omega
        rw [hk, List.take_succ_cons, List.take_zero]
        simp only [List.length_cons, List.length_nil, List.map_cons, List.map_nil,
          List.sum_cons, List.sum_nil, ColorAcc.mk.injEq]
        refine ⟨trivial, by ring, by ring⟩
      · rw [if_neg hstop]
        rw [ih ⟨acc.count + 1, acc.sumX + p.1, acc.sumY + p.2⟩ (by push_cast at hstop ⊢; omega)]
        have hk : (cap - (acc.count : Int)).toNat =
            (cap - ((acc.count + 1 : Nat) : Int)).toNat + 1 := by
          push_cast
          push_cast at hstop
          omega
        rw [hk, List.take_succ_cons]
        simp only [List.length_cons, List.map_cons, List.sum_cons, ColorAcc.mk.injEq]
        refine ⟨by omega, by ring, by ring⟩

/-- A scan rectangle with non-positive width or height contains no pixel. -/
theorem scanCoords_nil {rx ry rw rh : Int} (h : rw ≤ 0 ∨ rh ≤ 0) :
    scanCoords rx ry rw rh = [] := by
  rcases h with h | h
  · apply List.eq_nil_iff_forall_not_mem.mpr
    intro p hp
    rw [scanCoords, List.mem_flatMap] at hp
    obtain ⟨dy, _, hin⟩ := hp
    rw [List.mem_map] at hin
    obtain ⟨dx, hdx, _⟩ := hin
    rw [mem_intRange] at hdx
    omega
  · rw [scanCoords, Int.toNat_of_nonpos h]
    rfl

/-- C5 (amended): find_color_scalar scans the rectangle produced by the
code's clamping (origin raised to 0 keeping the width/height, right and
bottom clipped to the frame — NOT the geometric intersection when the origin
is negative, see the counterexample), in row-major order, counting the
pixels that pass the wrapped-hue tolerance test, stopping early when the
count reaches the cap; whenever the count is positive the reported center
is (floor(sum x/count), floor(sum y/count)) over the accumulated matches —
the first cap matched pixels in scan order when the cap is reached, all
matched pixels otherwise; a clamped width or height <= 0 yields count 0. -/
theorem C5_amended_find_color (frame : Int → Int → Pixel) (width height : Int)
    (region : Rect2D) (target : ColorHSV) (tolerance : Int) (cap : Int)
    (hcap : 0 < cap) :
    let rc := scanClamp width height region
    let test : Int × Int → Bool := fun p => colorMatch target tolerance (frame p.1 p.2)
    let matched := (scanCoords rc.x rc.y rc.width rc.height).filter test
    let taken := matched.take cap.toNat
    (find_color_scalar frame width height region target tolerance cap).1 =
        min cap.toNat matched.length ∧
      find_color_scalar frame width height region target tolerance cap =
        (taken.length,
          if 0 < taken.length then
            some ⟨Int.tdiv ((taken.map (fun p => p.1)).sum) (taken.length : Int),
                  Int.tdiv ((taken.map (fun p => p.2)).sum) (taken.length : Int)⟩
          else none) ∧
      ((matched.length : Int) < cap →
        find_color_scalar frame width height region target tolerance cap =
          (matched.length,
            if matched.length = 0 then none
            else some ⟨Int.tdiv ((matched.map (fun p => p.1)).sum) (matched.length : Int),
                       Int.tdiv ((matched.map (fun p => p.2)).sum) (matched.length : Int)⟩)) ∧
      (rc.width ≤ 0 ∨ rc.height ≤ 0 →
        (find_color_scalar frame width height region target tolerance cap).1 = 0) := by
  intro rc test matched taken
  have hcountP : (scanCoords rc.x rc.y rc.width rc.height).countP test = matched.length :=
    List.countP_eq_length_filter _ _
  have hcnt := colorLoop_count test cap (scanCoords rc.x rc.y rc.width rc.height)
      ⟨0, 0, 0⟩ (by exact_mod_cast hcap)
  rw [hcountP] at hcnt
  have htake := colorLoop_take test cap (scanCoords rc.x rc.y rc.width rc.height)
      ⟨0, 0, 0⟩ (by exact_mod_cast hcap)
  simp only [Nat.cast_zero, sub_zero, Nat.zero_add, zero_add] at htake
  refine ⟨?_, ?_, ?_, ?_⟩
  · show (find_color_scalar frame width height region target tolerance cap).1 = _
    unfold find_color_scalar
    simp only []
    rw [hcnt]
    simp
  · show find_color_scalar frame width height region target tolerance cap = _
    unfold find_color_scalar
    simp only []
    rw [htake]
  · intro hlt
    have hfull := colorLoop_no_cap test cap (scanCoords rc.x rc.y rc.width rc.height)
      ⟨0, 0, 0⟩ (by show ((0 + _ : Nat) : Int) < cap; rw [Nat.zero_add, hcountP]; exact_mod_cast hlt)
    rw [hcountP] at hfull
    unfold find_color_scalar
    simp only []
    rw [hfull]
    simp only [Nat.zero_add, zero_add]
    by_cases h0 : matched.length = 0
    · simp [h0]
    · simp only [h0, if_false]
      rw [if_pos (Nat.pos_of_ne_zero h0)]
  · intro hdeg
    show (find_color_scalar frame width height region target tolerance cap).1 = 0
    unfold find_color_scalar
    simp only []
    rw [hcnt]
    have : matched = [] := by
      show (scanCoords rc.x rc.y rc.width rc.height).filter test = []
      rw [scanCoords_nil hdeg]
      rfl
    rw [this]
    simp

/-- C5 (witness): the amended characterization applied to a concrete 2x2
all-black frame, full-frame region, zero tolerance and cap 3 — the cap IS
reached (4 pixels match) and the reported center is the centroid of the
first 3 matched pixels. -/
theorem C5_witness :
    (0 : Int) < 3 ∧
    (find_color_scalar (fun _ _ => ⟨0, 0, 0⟩) 2 2 ⟨0, 0, 0, 0⟩ ⟨0, 0, 0⟩ 0 3).1 =
      min (3 : Int).toNat
        (((scanCoords (scanClamp 2 2 ⟨0, 0, 0, 0⟩).x (scanClamp 2 2 ⟨0, 0, 0, 0⟩).y
          (scanClamp 2 2 ⟨0, 0, 0, 0⟩).width (scanClamp 2 2 ⟨0, 0, 0, 0⟩).height).filter
        (fun p => colorMatch ⟨0, 0, 0⟩ 0 ((fun _ _ => (⟨0, 0, 0⟩ : Pixel)) p.1 p.2)))).length ∧
    find_color_scalar (fun _ _ => ⟨0, 0, 0⟩) 2 2 ⟨0, 0, 0, 0⟩ ⟨0, 0, 0⟩ 0 3 =
      (((((scanCoords (scanClamp 2 2 ⟨0, 0, 0, 0⟩).x (scanClamp 2 2 ⟨0, 0, 0, 0⟩).y
          (scanClamp 2 2 ⟨0, 0, 0, 0⟩).width (scanClamp 2 2 ⟨0, 0, 0, 0⟩).height).filter
        (fun p => colorMatch ⟨0, 0, 0⟩ 0 ((fun _ _ => (⟨0, 0, 0⟩ : Pixel)) p.1 p.2)))).take (3 : Int).toNat).length,
       if 0 < ((((scanCoords (scanClamp 2 2 ⟨0, 0, 0, 0⟩).x (scanClamp 2 2 ⟨0, 0, 0, 0⟩).y
          (scanClamp 2 2 ⟨0, 0, 0, 0⟩).width (scanClamp 2 2 ⟨0, 0, 0, 0⟩).height).filter
        (fun p => colorMatch ⟨0, 0, 0⟩ 0 ((fun _ _ => (⟨0, 0, 0⟩ : Pixel)) p.1 p.2)))).take (3 : Int).toNat).length then
         some ⟨Int.tdiv ((((((scanCoords (scanClamp 2 2 ⟨0, 0, 0, 0⟩).x (scanClamp 2 2 ⟨0, 0, 0, 0⟩).y
          (scanClamp 2 2 ⟨0, 0, 0, 0⟩).width (scanClamp 2 2 ⟨0, 0, 0, 0⟩).height).filter
        (fun p => colorMatch ⟨0, 0, 0⟩ 0 ((fun _ _ => (⟨0, 0, 0⟩ : Pixel)) p.1 p.2)))).take (3 : Int).toNat).map (fun p => p.1)).sum)
                 ((((((scanCoords (scanClamp 2 2 ⟨0, 0, 0, 0⟩).x (scanClamp 2 2 ⟨0, 0, 0, 0⟩).y
          (scanClamp 2 2 ⟨0, 0, 0, 0⟩).width (scanClamp 2 2 ⟨0, 0, 0, 0⟩).height).filter
        (fun p => colorMatch ⟨0, 0, 0⟩ 0 ((fun _ _ => (⟨0, 0, 0⟩ : Pixel)) p.1 p.2)))).take (3 : Int).toNat).length : Nat) : Int),
               Int.tdiv ((((((scanCoords (scanClamp 2 2 ⟨0, 0, 0, 0⟩).x (scanClamp 2 2 ⟨0, 0, 0, 0⟩).y
          (scanClamp 2 2 ⟨0, 0, 0, 0⟩).width (scanClamp 2 2 ⟨0, 0, 0, 0⟩).height).filter
        (fun p => colorMatch ⟨0, 0, 0⟩ 0 ((fun _ _ => (⟨0, 0, 0⟩ : Pixel)) p.1 p.2)))).take (3 : Int).toNat).map (fun p => p.2)).sum)
                 ((((((scanCoords (scanClamp 2 2 ⟨0, 0, 0, 0⟩).x (scanClamp 2 2 ⟨0, 0, 0, 0⟩).y
          (scanClamp 2 2 ⟨0, 0, 0, 0⟩).width (scanClamp 2 2 ⟨0, 0, 0, 0⟩).height).filter
        (fun p => colorMatch ⟨0, 0, 0⟩ 0 ((fun _ _ => (⟨0, 0, 0⟩ : Pixel)) p.1 p.2)))).take (3 : Int).toNat).length : Nat) : Int)⟩
       else none) :=
  ⟨by decide,
   (C5_amended_find_color (fun _ _ => ⟨0, 0, 0⟩) 2 2 ⟨0, 0, 0, 0⟩ ⟨0, 0, 0⟩ 0 3
     (by decide)).1,
   (C5_amended_find_color (fun _ _ => ⟨0, 0, 0⟩) 2 2 ⟨0, 0, 0, 0⟩ ⟨0, 0, 0⟩ 0 3
     (by decide)).2.1⟩

/-! ## Template matcher (vision_engine.c, template_match_scalar /
vision_find_template)

The C code compares float NCC scores `P / sqrt(F*T)` (P, F, T sums of
products of non-negative gray values).  Every comparison it performs —
`score > best_score`, `best_score > 0.5f`, `best_score >= threshold` — is
order-preserved by squaring, so scores are embedded exactly as the pair
`(P^2, F*T)` of natural numbers whose quotient is the squared score, and
comparisons become cross multiplications.  Out-of-bounds candidates and a
vanishing denominator give score 0, embedded as the pair (0, 1); every pair
produced thus has a positive denominator, which makes the cross-multiplied
comparison equivalent to the float one.  Float rounding is not modelled (the
spec mandates the scalar formula up to float rounding). -/

/-- The square of an NCC score as an exact fraction `n / d` of naturals. -/
structure ScoreSq where
  n : Nat
  d : Nat
deriving DecidableEq, Repr

/-- Strict order on squared scores: `a < b` by cross multiplication (exact
for the positive denominators the matcher produces). -/
def ScoreSq.ltS (a b : ScoreSq) : Prop := a.n * b.d < b.n * a.d

instance (a b : ScoreSq) : Decidable (a.ltS b) := by
  unfold ScoreSq.ltS
  infer_instance

/-- TemplateData from shared_bridge.h: the pixel buffer is a function, the
float threshold is carried as its exact rational value. -/
structure TemplateData where
  id : Nat
  data : Int → Int → Pixel
  width : Int
  height : Int
  threshold : ℚ
  search_region : Rect2D

/-- VisionResult from shared_bridge.h.  `confidence_sq` is the square of the
C float confidence, as an exact fraction (see the section header). -/
structure VisionResult where
  trigger_id : Nat
  found : Bool
  confidence_sq : ScoreSq
  location : Point2D
  bounding_box : Rect2D
  timestamp_ns : Int
deriving DecidableEq, Repr

/-- Grayscale-by-average: 3 times the C `(r+g+b)/3.0f` (NCC is invariant
under scaling both images by 3). -/
def gray (p : Pixel) : Nat := p.r + p.g + p.b

/-- The (frame gray, template gray) pairs visited by the template loops at
candidate position (fx, fy), row-major. -/
def pixPairs (frame : Int → Int → Pixel) (tmpl : TemplateData) (fx fy : Int) :
    List (Nat × Nat) :=
  (intRange tmpl.height.toNat).flatMap (fun ty =>
    (intRange tmpl.width.toNat).map (fun tx =>
      (gray (frame (fx + tx) (fy + ty)), gray (tmpl.data tx ty))))

/-- sum_prod of template_match_scalar. -/
def sumProd (l : List (Nat × Nat)) : Nat := (l.map (fun p => p.1 * p.2)).sum

/-- sum_frame_sq of template_match_scalar. -/
def sumFrameSq (l : List (Nat × Nat)) : Nat := (l.map (fun p => p.1 * p.1)).sum

/-- sum_tmpl_sq of template_match_scalar. -/
def sumTmplSq (l : List (Nat × Nat)) : Nat := (l.map (fun p => p.2 * p.2)).sum

/-- template_match_scalar from vision_engine.c lines 301-327, squared: score
0 when the candidate rectangle leaves the frame (`fx < 0 || fy < 0 ||
fx + w > frame_width || fy + h > frame_height`), else `P / sqrt(F*T)`, 0 when
the denominator vanishes — here the squared fraction `(P^2, F*T)`. -/
def template_match_sq (frame : Int → Int → Pixel) (frame_width frame_height : Int)
    (fx fy : Int) (tmpl : TemplateData) : ScoreSq :=
  if fx < 0 ∨ fy < 0 ∨ fx + tmpl.width > frame_width ∨ fy + tmpl.height > frame_height then
    ⟨0, 1⟩
  else if sumFrameSq (pixPairs frame tmpl fx fy) * sumTmplSq (pixPairs frame tmpl fx fy) = 0 then
    ⟨0, 1⟩
  else
    ⟨sumProd (pixPairs frame tmpl fx fy) * sumProd (pixPairs frame tmpl fx fy),
     sumFrameSq (pixPairs frame tmpl fx fy) * sumTmplSq (pixPairs frame tmpl fx fy)⟩

/-- Running best of the search: best_score (squared), best_x, best_y. -/
structure TBest where
  score_sq : ScoreSq
  x : Int
  y : Int
deriving DecidableEq, Repr

/-- One candidate of the search loops: update on a strictly better score
(`if (score > best_score)`). -/
def tmatchStep (frame : Int → Int → Pixel) (w h : Int) (tmpl : TemplateData)
    (st : TBest) (pos : Int × Int) : TBest :=
  let sq := template_match_sq frame w h pos.1 pos.2 tmpl
  if st.score_sq.ltS sq then ⟨sq, pos.1, pos.2⟩ else st

/-- The values of `for (v = lo; v < hi; v += 4)`. -/
def stepRange4 (lo hi : Int) : List Int :=
  (List.range ((hi - lo + 3) / 4).toNat).map (fun i => lo + 4 * (i : Int))

/-- The values of `for (v = lo; v <= hi; v++)`. -/
def rangeIncl (lo hi : Int) : List Int :=
  (List.range (hi + 1 - lo).toNat).map (fun i => lo + (i : Int))

/-- Candidate list of the coarse step-4 scan (y outer, x inner). -/
def coarseList (rx ry rw rh tw th : Int) : List (Int × Int) :=
  (stepRange4 ry (ry + rh - th)).flatMap (fun y =>
    (stepRange4 rx (rx + rw - tw)).map (fun x => (x, y)))

/-- Candidate list of the fine +-4 rescan around a best position. -/
def fineList (bx bY : Int) : List (Int × Int) :=
  (rangeIncl (bY - 4) (bY + 4)).flatMap (fun y =>
    (rangeIncl (bx - 4) (bx + 4)).map (fun x => (x, y)))

/-- vision_find_template from vision_engine.c lines 400-460: default the
search region (origins not above 0 are raised to 0, non-positive sizes
default to the frame, no right/bottom clamp here), coarse step-4 scan over
`x < rx + rw - t_w`, `y < ry + rh - t_h`, fine +-4 rescan when the best
score exceeds 0.5 (squares: the pair (1,4)), then assemble the result.
`t` is the value returned by its get_time_ns call.  `found` renders
`best_score >= threshold` on squares: true when the float threshold is
non-positive (scores are non-negative), else `threshold^2 <= n/d`.
The region defaulting (lines 406-409) first: -/
def searchRegionOf (width height : Int) (tmpl : TemplateData) : Rect2D :=
  ⟨if tmpl.search_region.x > 0 then tmpl.search_region.x else 0,
   if tmpl.search_region.y > 0 then tmpl.search_region.y else 0,
   if tmpl.search_region.width > 0 then tmpl.search_region.width else width,
   if tmpl.search_region.height > 0 then tmpl.search_region.height else height⟩

/-- The coarse phase of vision_find_template: fold the step-4 candidates
from the initial best (score 0 at (0,0)). -/
def coarseBest (frame : Int → Int → Pixel) (width height : Int)
    (tmpl : TemplateData) : TBest :=
  (coarseList (searchRegionOf width height tmpl).x (searchRegionOf width height tmpl).y
      (searchRegionOf width height tmpl).width (searchRegionOf width height tmpl).height
      tmpl.width tmpl.height).foldl
    (tmatchStep frame width height tmpl) ⟨⟨0, 1⟩, 0, 0⟩

/-- Both phases: the fine +-4 rescan runs only when the coarse best exceeds
0.5 (squares: the pair (1,4)). -/
def searchBest (frame : Int → Int → Pixel) (width height : Int)
    (tmpl : TemplateData) : TBest :=
  if (ScoreSq.mk 1 4).ltS (coarseBest frame width height tmpl).score_sq then
    (fineList (coarseBest frame width height tmpl).x
        (coarseBest frame width height tmpl).y).foldl
      (tmatchStep frame width height tmpl) (coarseBest frame width height tmpl)
  else coarseBest frame width height tmpl

def vision_find_template (frame : Int → Int → Pixel) (width height : Int)
    (tmpl : TemplateData) (t : Int) : VisionResult :=
  let b2 := searchBest frame width height tmpl
  { trigger_id := tmpl.id
    found := decide (tmpl.threshold ≤ 0) ||
      decide (tmpl.threshold ^ 2 * (b2.score_sq.d : ℚ) ≤ (b2.score_sq.n : ℚ))
    confidence_sq := b2.score_sq
    location := ⟨b2.x + Int.tdiv tmpl.width 2, b2.y + Int.tdiv tmpl.height 2⟩
    bounding_box := ⟨b2.x, b2.y, tmpl.width, tmpl.height⟩
    timestamp_ns := t }

/-- The 6x6 frame of the C2 counterexample: black everywhere except a white
2x2 block pasted at (4,4). -/
def cexFrameC2 : Int → Int → Pixel := fun x y =>
  if 4 ≤ x ∧ x < 6 ∧ 4 ≤ y ∧ y < 6 then ⟨255, 255, 255⟩ else ⟨0, 0, 0⟩

/-- The all-white 2x2 template of the C2 counterexample, full-frame search
region, threshold 0.9. -/
def cexTmplC2 : TemplateData :=
  { id := 0, data := fun _ _ => ⟨255, 255, 255⟩, width := 2, height := 2,
    threshold := 9/10, search_region := ⟨0, 0, 0, 0⟩ }

/-- C2 (counterexample): the white 2x2 template pasted at (4,4) into a black
6x6 frame lies inside the searched region, yet vision_find_template returns
bounding_box (0,0,2,2): the coarse loops run `x < rx + rw - t_w`, so the
only visited position is (0,0) (score 0 there), position (4,4) is never
scanned, and the fine rescan is skipped because the best score is 0. -/
theorem C2_counterexample :
    (∀ tx : Nat, tx < 2 → ∀ ty : Nat, ty < 2 →
        cexFrameC2 (4 + (tx : Int)) (4 + (ty : Int)) = cexTmplC2.data (tx : Int) (ty : Int)) ∧
    (0 : Int) ≤ 4 ∧ 4 + cexTmplC2.width ≤ 6 ∧ 4 + cexTmplC2.height ≤ 6 ∧
    (vision_find_template cexFrameC2 6 6 cexTmplC2 0).bounding_box = ⟨0, 0, 2, 2⟩ ∧
    (⟨0, 0, 2, 2⟩ : Rect2D) ≠ ⟨4, 4, 2, 2⟩ := by
  refine ⟨by decide, by decide, by decide, by decide, by decide, by decide⟩

/-- Cauchy-Schwarz for the scan pair lists, rational form. -/
theorem pairs_cauchy_schwarz (l : List (Nat × Nat)) :
    ((sumProd l : ℚ)) ^ 2 ≤ (sumFrameSq l : ℚ) * (sumTmplSq l : ℚ) := by
  induction l with
  | nil => simp [sumProd, sumFrameSq, sumTmplSq]
  | cons p rest ih =>
    simp only [sumProd, sumFrameSq, sumTmplSq, List.map_cons, List.sum_cons] at ih ⊢
    simp only [Nat.cast_add, Nat.cast_mul]
    set a := (p.1 : ℚ)
    set b := (p.2 : ℚ)
    set S : ℚ := (((rest.map (fun p => p.1 * p.2)).sum : ℕ) : ℚ)
    set F : ℚ := (((rest.map (fun p => p.1 * p.1)).sum : ℕ) : ℚ)
    set T : ℚ := (((rest.map (fun p => p.2 * p.2)).sum : ℕ) : ℚ)
    have ha : 0 ≤ a := Nat.cast_nonneg _
    have hb : 0 ≤ b := Nat.cast_nonneg _
    have hS : 0 ≤ S := Nat.cast_nonneg _
    have h2 : 2 * (a * b) * S ≤ a * a * T + F * (b * b) := by
      have hY : 0 ≤ 2 * (a * b) * S := by positivity
      have hX : 0 ≤ a * a * T + F * (b * b) := by positivity
      have hsq : (2 * (a * b) * S) ^ 2 ≤ (a * a * T + F * (b * b)) ^ 2 := by
        nlinarith [sq_nonneg (a * a * T - F * (b * b)),
          mul_nonneg (mul_nonneg (mul_nonneg ha ha) (mul_nonneg hb hb)) (sub_nonneg.mpr ih)]
      exact (pow_le_pow_iff_left₀ hY hX (by norm_num)).mp hsq
    nlinarith [h2, ih]

/-- Cauchy-Schwarz on the naturals: `P*P <= F*T`. -/
theorem pairs_cauchy_schwarz_nat (l : List (Nat × Nat)) :
    sumProd l * sumProd l ≤ sumFrameSq l * sumTmplSq l := by
  have h := pairs_cauchy_schwarz l
  rw [pow_two] at h
  exact_mod_cast h

/-- Every squared score the matcher produces has a positive denominator. -/
theorem template_match_sq_den_pos (frame : Int → Int → Pixel) (w h fx fy : Int)
    (tmpl : TemplateData) : 0 < (template_match_sq frame w h fx fy tmpl).d := by
  unfold template_match_sq
  split_ifs with h1 h2
  · exact Nat.one_pos
  · exact Nat.one_pos
  · exact Nat.pos_of_ne_zero h2

/-- Every squared score is at most 1: its numerator is at most its
denominator (Cauchy-Schwarz). -/
theorem template_match_sq_le_one (frame : Int → Int → Pixel) (w h fx fy : Int)
    (tmpl : TemplateData) :
    (template_match_sq frame w h fx fy tmpl).n ≤ (template_match_sq frame w h fx fy tmpl).d := by
  simp only [template_match_sq]
  split_ifs with h1 h2
  · exact Nat.zero_le _
  · exact Nat.zero_le _
  · exact pairs_cauchy_schwarz_nat _

/-- At a position where the frame is byte-identical to the template (and the
template is not entirely black), the candidate rectangle is inside the frame
and the NCC score is exactly 1: the squared fraction (T*T, T*T). -/
theorem template_match_sq_paste (frame : Int → Int → Pixel) (w h : Int)
    (tmpl : TemplateData) (px py : Int)
    (hx : 0 ≤ px) (hy : 0 ≤ py)
    (hxw : px + tmpl.width ≤ w) (hyh : py + tmpl.height ≤ h)
    (hpaste : ∀ tx : Nat, tx < tmpl.width.toNat → ∀ ty : Nat, ty < tmpl.height.toNat →
        frame (px + (tx : Int)) (py + (ty : Int)) = tmpl.data (tx : Int) (ty : Int)) :
    template_match_sq frame w h px py tmpl =
      ⟨sumTmplSq (pixPairs frame tmpl px py) * sumTmplSq (pixPairs frame tmpl px py),
       sumTmplSq (pixPairs frame tmpl px py) * sumTmplSq (pixPairs frame tmpl px py)⟩ ∨
    sumTmplSq (pixPairs frame tmpl px py) = 0 := by
  by_cases hT : sumTmplSq (pixPairs frame tmpl px py) = 0
  · exact Or.inr hT
  left
  have hpairs : ∀ q ∈ pixPairs frame tmpl px py, q.1 = q.2 := by
    intro q hq
    simp only [pixPairs, List.mem_flatMap, List.mem_map, mem_intRange] at hq
    obtain ⟨ty, hty, tx, htx, rfl⟩ := hq
    have hp := hpaste tx.toNat (by omega) ty.toNat (by omega)
    rw [Int.toNat_of_nonneg htx.1, Int.toNat_of_nonneg hty.1] at hp
    simp only []
    rw [hp]
  have hPT : sumProd (pixPairs frame tmpl px py) = sumTmplSq (pixPairs frame tmpl px py) := by
    unfold sumProd sumTmplSq
    exact congrArg List.sum (List.map_congr_left fun q hq => by rw [hpairs q hq])
  have hFT : sumFrameSq (pixPairs frame tmpl px py) = sumTmplSq (pixPairs frame tmpl px py) := by
    unfold sumFrameSq sumTmplSq
    exact congrArg List.sum (List.map_congr_left fun q hq => by rw [hpairs q hq])
  simp only [template_match_sq]
  rw [if_neg (by push_neg; refine ⟨by omega, by omega, by omega, by omega⟩)]
  simp only [hPT, hFT]
  rw [if_neg (by exact Nat.mul_ne_zero hT hT)]

/-- A running best with score 1 is never replaced (all scores are at most 1). -/
theorem fold_stay (frame : Int → Int → Pixel) (w h : Int) (tmpl : TemplateData)
    (L : List (Int × Int)) (st : TBest)
    (hnd : st.score_sq.n = st.score_sq.d) :
    L.foldl (tmatchStep frame w h tmpl) st = st := by
  induction L with
  | nil => rfl
  | cons p rest ih =>
    rw [List.foldl_cons]
    have hno : ¬ st.score_sq.ltS (template_match_sq frame w h p.1 p.2 tmpl) := by
      unfold ScoreSq.ltS
      have h1 := template_match_sq_le_one frame w h p.1 p.2 tmpl
      have h2 := template_match_sq_den_pos frame w h p.1 p.2 tmpl
      push_neg
      calc (template_match_sq frame w h p.1 p.2 tmpl).n * st.score_sq.d
          ≤ (template_match_sq frame w h p.1 p.2 tmpl).d * st.score_sq.d :=
            Nat.mul_le_mul_right _ h1
        _ = st.score_sq.n * (template_match_sq frame w h p.1 p.2 tmpl).d := by
            rw [hnd]; ring
    rw [show tmatchStep frame w h tmpl st p = st by unfold tmatchStep; rw [if_neg hno]]
    exact ih

/-- A running best strictly below score 1 stays strictly below 1 as long as
every scanned candidate scores strictly below 1. -/
theorem fold_lt_one (frame : Int → Int → Pixel) (w h : Int) (tmpl : TemplateData)
    (L : List (Int × Int)) (st : TBest)
    (hst : st.score_sq.n < st.score_sq.d)
    (hL : ∀ q ∈ L, (template_match_sq frame w h q.1 q.2 tmpl).n <
        (template_match_sq frame w h q.1 q.2 tmpl).d) :
    (L.foldl (tmatchStep frame w h tmpl) st).score_sq.n <
      (L.foldl (tmatchStep frame w h tmpl) st).score_sq.d := by
  induction L generalizing st with
  | nil => exact hst
  | cons p rest ih =>
    rw [List.foldl_cons]
    unfold tmatchStep
    by_cases hupd : st.score_sq.ltS (template_match_sq frame w h p.1 p.2 tmpl)
    · rw [if_pos hupd]
      exact ih ⟨_, p.1, p.2⟩ (hL p (List.mem_cons_self _ _))
        (fun q hq => hL q (List.mem_cons_of_mem _ hq))
    · rw [if_neg hupd]
      exact ih st hst (fun q hq => hL q (List.mem_cons_of_mem _ hq))

/-- C2 (amended): if the frame is byte-identical to the template at (px, py),
the template is not entirely black, the coarse step-4 scan visits (px, py) —
i.e. the coarse candidate list splits as L1 ++ (px,py) :: L2, which excludes
the right/bottom flush positions the strict loop bounds never reach — and
every candidate scanned before it scores strictly below 1, then
vision_find_template returns bounding_box = (px, py, t_w, t_h) exactly, with
location at the box's center. -/
theorem C2_amended_find_template (frame : Int → Int → Pixel) (width height : Int)
    (tmpl : TemplateData) (t : Int) (px py : Int) (L1 L2 : List (Int × Int))
    (hx : 0 ≤ px) (hy : 0 ≤ py)
    (hxw : px + tmpl.width ≤ width) (hyh : py + tmpl.height ≤ height)
    (hpaste : ∀ tx : Nat, tx < tmpl.width.toNat → ∀ ty : Nat, ty < tmpl.height.toNat →
        frame (px + (tx : Int)) (py + (ty : Int)) = tmpl.data (tx : Int) (ty : Int))
    (hT : sumTmplSq (pixPairs frame tmpl px py) ≠ 0)
    (hsplit : coarseList (searchRegionOf width height tmpl).x
        (searchRegionOf width height tmpl).y (searchRegionOf width height tmpl).width
        (searchRegionOf width height tmpl).height tmpl.width tmpl.height =
        L1 ++ (px, py) :: L2)
    (hbefore : ∀ q ∈ L1, (template_match_sq frame width height q.1 q.2 tmpl).n <
        (template_match_sq frame width height q.1 q.2 tmpl).d) :
    (vision_find_template frame width height tmpl t).bounding_box =
      ⟨px, py, tmpl.width, tmpl.height⟩ ∧
    (vision_find_template frame width height tmpl t).location =
      ⟨px + Int.tdiv tmpl.width 2, py + Int.tdiv tmpl.height 2⟩ := by
  have hps := (template_match_sq_paste frame width height tmpl px py hx hy hxw hyh
    hpaste).resolve_right hT
  have hT2pos : 0 < sumTmplSq (pixPairs frame tmpl px py) *
      sumTmplSq (pixPairs frame tmpl px py) :=
    Nat.pos_of_ne_zero (Nat.mul_ne_zero hT hT)
  have hb1 : coarseBest frame width height tmpl =
      ⟨⟨sumTmplSq (pixPairs frame tmpl px py) * sumTmplSq (pixPairs frame tmpl px py),
        sumTmplSq (pixPairs frame tmpl px py) * sumTmplSq (pixPairs frame tmpl px py)⟩,
       px, py⟩ := by
    unfold coarseBest
    rw [hsplit, List.foldl_append, List.foldl_cons]
    have hmid := fold_lt_one frame width height tmpl L1 ⟨⟨0, 1⟩, 0, 0⟩
      (by exact Nat.zero_lt_one) hbefore
    have hstep : tmatchStep frame width height tmpl
        (L1.foldl (tmatchStep frame width height tmpl) ⟨⟨0, 1⟩, 0, 0⟩) (px, py) =
        ⟨⟨sumTmplSq (pixPairs frame tmpl px py) * sumTmplSq (pixPairs frame tmpl px py),
          sumTmplSq (pixPairs frame tmpl px py) * sumTmplSq (pixPairs frame tmpl px py)⟩,
         px, py⟩ := by
      set mid := L1.foldl (tmatchStep frame width height tmpl) ⟨⟨0, 1⟩, 0, 0⟩ with hmiddef
      have hcond : mid.score_sq.ltS (template_match_sq frame width height px py tmpl) := by
        rw [hps]
        unfold ScoreSq.ltS
        simp only []
        nlinarith [hmid, hT2pos]
      unfold tmatchStep
      simp only []
      rw [if_pos hcond, hps]
    rw [hstep]
    exact fold_stay frame width height tmpl L2
      ⟨⟨sumTmplSq (pixPairs frame tmpl px py) * sumTmplSq (pixPairs frame tmpl px py),
        sumTmplSq (pixPairs frame tmpl px py) * sumTmplSq (pixPairs frame tmpl px py)⟩,
       px, py⟩ rfl
  have hb2 : searchBest frame width height tmpl =
      ⟨⟨sumTmplSq (pixPairs frame tmpl px py) * sumTmplSq (pixPairs frame tmpl px py),
        sumTmplSq (pixPairs frame tmpl px py) * sumTmplSq (pixPairs frame tmpl px py)⟩,
       px, py⟩ := by
    unfold searchBest
    rw [hb1]
    rw [if_pos (by unfold ScoreSq.ltS; simp only []; nlinarith [hT2pos])]
    exact fold_stay frame width height tmpl _
      ⟨⟨sumTmplSq (pixPairs frame tmpl px py) * sumTmplSq (pixPairs frame tmpl px py),
        sumTmplSq (pixPairs frame tmpl px py) * sumTmplSq (pixPairs frame tmpl px py)⟩,
       px, py⟩ rfl
  refine ⟨?_, ?_⟩
  · unfold vision_find_template
    simp [hb2]
  · unfold vision_find_template
    simp [hb2]

/-- C2 (witness): the amended invariant at the concrete paste position
(0, 0) of a 2x2 all-white template in an all-white 6x6 frame (the coarse
scan visits exactly (0,0), nothing is scanned before it). -/
theorem C2_witness :
    (vision_find_template (fun _ _ => ⟨255, 255, 255⟩) 6 6
      { id := 0, data := fun _ _ => ⟨255, 255, 255⟩, width := 2, height := 2,
        threshold := 1, search_region := ⟨0, 0, 0, 0⟩ } 0).bounding_box = ⟨0, 0, 2, 2⟩ ∧
    (vision_find_template (fun _ _ => ⟨255, 255, 255⟩) 6 6
      { id := 0, data := fun _ _ => ⟨255, 255, 255⟩, width := 2, height := 2,
        threshold := 1, search_region := ⟨0, 0, 0, 0⟩ } 0).location = ⟨1, 1⟩ :=
  C2_amended_find_template (fun _ _ => ⟨255, 255, 255⟩) 6 6
    { id := 0, data := fun _ _ => ⟨255, 255, 255⟩, width := 2, height := 2,
      threshold := 1, search_region := ⟨0, 0, 0, 0⟩ } 0 0 0 [] []
    (by decide) (by decide) (by decide) (by decide) (by decide) (by decide)
    (by decide) (by decide)

/-! ## Edge locator (vision_engine.c, vision_detect_edge) -/

/-- The values of `for (v = lo; v < hi; v++)`. -/
def rangeExcl (lo hi : Int) : List Int :=
  (intRange (hi - lo).toNat).map (fun i => lo + i)

/-- Membership in rangeExcl is the interval condition. -/
theorem mem_rangeExcl {lo hi x : Int} : x ∈ rangeExcl lo hi ↔ lo ≤ x ∧ x < hi := by
  constructor
  · intro hx
    rw [rangeExcl, List.mem_map] at hx
    obtain ⟨a, ha, rfl⟩ := hx
    rw [mem_intRange] at ha
    omega
  · intro hb
    rw [rangeExcl, List.mem_map]
    exact ⟨x - lo, by rw [mem_intRange]; omega, by omega⟩

/-- Per-pixel gradient contribution: `abs(next.r - prev.r) + abs(next.g -
prev.g) + abs(next.b - prev.b)`. -/
def pixGrad (next prev : Pixel) : Int :=
  |(next.r : Int) - (prev.r : Int)| + |(next.g : Int) - (prev.g : Int)| +
    |(next.b : Int) - (prev.b : Int)|

/-- gradient_sum of interior row y (horizontal case, lines 478-489). -/
def rowGradSum (frame : Int → Int → Pixel) (rx rw y : Int) : Int :=
  ((intRange rw.toNat).map (fun dx =>
    pixGrad (frame (rx + dx) (y + 1)) (frame (rx + dx) (y - 1)))).sum

/-- gradient_sum of interior column x (vertical case, lines 498-510). -/
def colGradSum (frame : Int → Int → Pixel) (ry rh x : Int) : Int :=
  ((intRange rh.toNat).map (fun dy =>
    pixGrad (frame (x + 1) (ry + dy)) (frame (x - 1) (ry + dy)))).sum

/-- Max-gradient tracking of vision_detect_edge: fold (max_gradient,
edge_pos) over the interior positions, strict improvement only. -/
def edgeFold (g : Int → Int) (ps : List Int) (st : Int × Int) : Int × Int :=
  ps.foldl (fun st v => if g v > st.1 then (g v, v) else st) st

/-- vision_detect_edge from vision_engine.c lines 462-524: clamp the region
exactly as find_color_scalar does, scan interior rows (horizontal) or
columns (vertical) keeping the position of the maximal gradient sum, return
(status, out_position): status 0 when max_gradient > 1000, else -1;
edge_pos stays -1 when nothing was scanned. -/
def vision_detect_edge (frame : Int → Int → Pixel) (width height : Int)
    (region : Rect2D) (horizontal : Bool) : Int × Int :=
  let rc := scanClamp width height region
  let st :=
    if horizontal then
      edgeFold (rowGradSum frame rc.x rc.width) (rangeExcl (rc.y + 1) (rc.y + rc.height - 1))
        (0, -1)
    else
      edgeFold (colGradSum frame rc.y rc.height) (rangeExcl (rc.x + 1) (rc.x + rc.width - 1))
        (0, -1)
  (if st.1 > 1000 then 0 else -1, st.2)

/-! ## Shared types (shared_bridge.h) and the vision orchestrator -/

/-- ActionType from shared_bridge.h. -/
inductive ActionType where
  | none
  | tap
  | swipe
  | long_press
  | drag
  | wait
deriving DecidableEq, Repr

/-- ActionCommand from shared_bridge.h; `end_` renders the C field `end`,
`randomize` carries the exact rational value of the C float. -/
structure ActionCommand where
  type : ActionType
  start : Point2D
  end_ : Point2D
  duration_ms : Int
  hold_ms : Int
  randomize : ℚ
deriving DecidableEq, Repr

/-- GameState from shared_bridge.h. -/
inductive GameState where
  | idle
  | detecting
  | action_pending
  | executing
  | paused
  | error
deriving DecidableEq, Repr

/-- The tagged union of VisualTrigger (TriggerType plus params). -/
inductive TrigParams where
  | template (template_id : Nat)
  | color (c : ColorHSV)
  | edge (c : ColorHSV) (horizontal : Bool)
  | ocr
deriving DecidableEq

/-- VisualTrigger from shared_bridge.h. -/
structure VisualTrigger where
  id : Nat
  type_params : TrigParams
  region : Rect2D
  active : Bool

/-- The vision engine's global tables (g_templates/g_triggers with their
counts). -/
structure VisionEngine where
  templates : List TemplateData
  triggers : List VisualTrigger

/-- SharedMemoryHeader, reduced to the fields the embedded code reads or
writes.  `results` is the populated prefix of the 16 slots; num_results is
its length.  The pixel buffer that follows the header in shared memory is
the `frame` function. -/
structure SharedMemoryHeader where
  frame_number : Nat
  frame_ready : Nat
  result_ready : Nat
  current_state : GameState
  frame_width : Int
  frame_height : Int
  vision_latency_ns : Int
  brain_latency_ns : Int
  total_latency_ns : Int
  results : List VisionResult
  pending_action : ActionCommand
  frame : Int → Int → Pixel

/-- One slot of the vision_process_frame trigger loop (lines 538-587).
`start` is the frame detection start time first stamped into the slot;
`ttime` is the get_time_ns reading of the vision_find_template call (which
memcpy then copies over the whole slot — timestamp included).  Slot fields
the C branch leaves untouched (stale shared memory bytes) are modelled as
zeros; the color branch's center is uninitialized in C when no pixel
matched, modelled as (0,0) (claims only constrain it under found). -/
def triggerResult (eng : VisionEngine) (frame : Int → Int → Pixel) (w h : Int)
    (start ttime : Int) (trg : VisualTrigger) : VisionResult :=
  match trg.type_params with
  | .template idx =>
    if hidx : idx < eng.templates.length then
      vision_find_template frame w h (eng.templates.get ⟨idx, hidx⟩) ttime
    else
      ⟨trg.id, false, ⟨0, 1⟩, ⟨0, 0⟩, ⟨0, 0, 0, 0⟩, start⟩
  | .color c =>
    let r := vision_find_color_region frame w h (some trg.region) c 15
    ⟨trg.id, decide (r.1 > 100), if r.1 > 0 then ⟨1, 1⟩ else ⟨0, 1⟩,
     r.2.getD ⟨0, 0⟩, ⟨0, 0, 0, 0⟩, start⟩
  | .edge _ horizontal =>
    let e := vision_detect_edge frame w h trg.region horizontal
    ⟨trg.id, decide (e.1 = 0), if e.1 = 0 then ⟨1, 1⟩ else ⟨0, 1⟩,
     if horizontal then ⟨trg.region.x + Int.tdiv trg.region.width 2, e.2⟩
       else ⟨e.2, trg.region.y + Int.tdiv trg.region.height 2⟩,
     ⟨0, 0, 0, 0⟩, start⟩
  | .ocr => ⟨trg.id, false, ⟨0, 1⟩, ⟨0, 0⟩, ⟨0, 0, 0, 0⟩, start⟩

/-- Number of get_time_ns calls a trigger dispatch performs beyond the
loop itself (vision_find_template reads the clock once). -/
def clockCost (eng : VisionEngine) (trg : VisualTrigger) : Nat :=
  match trg.type_params with
  | .template idx => if idx < eng.templates.length then 1 else 0
  | _ => 0

/-- The trigger loop of vision_process_frame: process active triggers while
fewer than 16 results are filled; `ci` numbers the get_time_ns calls. -/
def processTriggers (eng : VisionEngine) (frame : Int → Int → Pixel) (w h : Int)
    (start : Int) (tick : Nat → Int) :
    List VisualTrigger → Nat → Nat → List VisionResult × Nat
  | [], _, ci => ([], ci)
  | trg :: rest, cnt, ci =>
    if cnt < 16 then
      if trg.active then
        let r := triggerResult eng frame w h start (tick ci) trg
        let rec0 := processTriggers eng frame w h start tick rest (cnt + 1)
          (ci + clockCost eng trg)
        (r :: rec0.1, rec0.2)
      else processTriggers eng frame w h start tick rest cnt ci
    else ([], ci)

/-- vision_process_frame from vision_engine.c lines 526-596: bail out with
-1 on a stale frame (`!shm->frame_ready`), record the start time (tick 0),
run the trigger loop, write num_results (the results list) and the vision
latency. -/
def vision_process_frame (eng : VisionEngine) (shm : SharedMemoryHeader)
    (tick : Nat → Int) : Int × SharedMemoryHeader :=
  if shm.frame_ready = 0 then (-1, shm)
  else
    let start := tick 0
    let pr := processTriggers eng shm.frame shm.frame_width shm.frame_height start tick
      eng.triggers 0 1
    (0, { shm with
            results := pr.1
            vision_latency_ns := tick pr.2 - start })

/-- The vision engine of the C3 failing input: one 1x1 template and one
active template trigger referencing it. -/
def engC3 : VisionEngine :=
  { templates := [{ id := 7, data := fun _ _ => ⟨0, 0, 0⟩, width := 1, height := 1,
                    threshold := 1, search_region := ⟨0, 0, 0, 0⟩ }],
    triggers := [{ id := 5, type_params := .template 0, region := ⟨0, 0, 0, 0⟩,
                   active := true }] }

/-- The shared header of the C3 failing input: a ready 2x2 black frame. -/
def shmC3 : SharedMemoryHeader :=
  { frame_number := 1, frame_ready := 1, result_ready := 0, current_state := .idle,
    frame_width := 2, frame_height := 2,
    vision_latency_ns := 0, brain_latency_ns := 0, total_latency_ns := 0,
    results := [], pending_action := ⟨.none, ⟨0, 0⟩, ⟨0, 0⟩, 0, 0, 0⟩,
    frame := fun _ _ => ⟨0, 0, 0⟩ }

/-- C3 (code bug, failing input evaluated): with one active template trigger
and a clock that advances by 1 per get_time_ns call (tick n = n), the slot
written by vision_process_frame carries timestamp_ns = 1 — the reading taken
INSIDE vision_find_template — although the frame's detection start time
recorded at the start of process_frame is tick 0 = 0.  The loop first stamps
`r->timestamp_ns = start_time`, but the template branch then memcpy's the
whole VisionResult over the slot, clobbering the stamp. -/
theorem C3_template_timestamp_bug :
    ((vision_process_frame engC3 shmC3 (fun n => (n : Int))).2.results.map
        (fun r => r.timestamp_ns)) = [1] ∧
    ((1 : Int) ≠ 0) := by
  refine ⟨by decide, by decide⟩

/-- The vision engine of the C8 counterexample: one active horizontal edge
trigger whose region is 1000 pixels wide on a 4-pixel-wide frame. -/
def engC8 : VisionEngine :=
  { templates := [],
    triggers := [{ id := 3, type_params := .edge ⟨0, 0, 0⟩ true,
                   region := ⟨0, 0, 1000, 4⟩, active := true }] }

/-- The shared header of the C8 counterexample: a ready 4x4 frame, black on
rows 0-1, white on rows 2-3 (a strong horizontal edge). -/
def shmC8 : SharedMemoryHeader :=
  { frame_number := 1, frame_ready := 1, result_ready := 0, current_state := .idle,
    frame_width := 4, frame_height := 4,
    vision_latency_ns := 0, brain_latency_ns := 0, total_latency_ns := 0,
    results := [], pending_action := ⟨.none, ⟨0, 0⟩, ⟨0, 0⟩, 0, 0, 0⟩,
    frame := fun _ y => if y < 2 then ⟨0, 0, 0⟩ else ⟨255, 255, 255⟩ }

/-- C8 (counterexample): after vision_process_frame on the edge trigger
above, the populated result has found = true but location = (500, 1):
the x coordinate is `region.x + region.width/2` computed from the UNCLIPPED
configured region, far outside the 4-pixel-wide frame. -/
theorem C8_counterexample :
    ((vision_process_frame engC8 shmC8 (fun n => (n : Int))).2.results.map
        (fun r => (r.found, r.location))) = [(true, ⟨500, 1⟩)] ∧
    ¬ ((500 : Int) < 4) := by
  refine ⟨by decide, by decide⟩

/-- The search fold keeps the best squared score within [0,1] with a
positive denominator. -/
theorem fold_score_bounds (frame : Int → Int → Pixel) (w h : Int)
    (tmpl : TemplateData) (L : List (Int × Int)) (st : TBest)
    (hst : st.score_sq.n ≤ st.score_sq.d ∧ 0 < st.score_sq.d) :
    (L.foldl (tmatchStep frame w h tmpl) st).score_sq.n ≤
      (L.foldl (tmatchStep frame w h tmpl) st).score_sq.d ∧
    0 < (L.foldl (tmatchStep frame w h tmpl) st).score_sq.d := by
  induction L generalizing st with
  | nil => exact hst
  | cons p rest ih =>
    rw [List.foldl_cons]
    unfold tmatchStep
    by_cases hupd : st.score_sq.ltS (template_match_sq frame w h p.1 p.2 tmpl)
    · rw [if_pos hupd]
      exact ih ⟨_, p.1, p.2⟩
        ⟨template_match_sq_le_one frame w h p.1 p.2 tmpl,
         template_match_sq_den_pos frame w h p.1 p.2 tmpl⟩
    · rw [if_neg hupd]
      exact ih st hst

/-- The two-phase search's best squared score lies within [0,1]. -/
theorem searchBest_bounds (frame : Int → Int → Pixel) (w h : Int)
    (tmpl : TemplateData) :
    (searchBest frame w h tmpl).score_sq.n ≤ (searchBest frame w h tmpl).score_sq.d ∧
    0 < (searchBest frame w h tmpl).score_sq.d := by
  have hco : (coarseBest frame w h tmpl).score_sq.n ≤ (coarseBest frame w h tmpl).score_sq.d ∧
      0 < (coarseBest frame w h tmpl).score_sq.d := by
    unfold coarseBest
    exact fold_score_bounds frame w h tmpl _ ⟨⟨0, 1⟩, 0, 0⟩ ⟨Nat.zero_le _, Nat.one_pos⟩
  unfold searchBest
  split_ifs with hgate
  · exact fold_score_bounds frame w h tmpl _ _ hco
  · exact hco

/-- A candidate with a positive squared score numerator lies fully inside
the frame and its template has positive dimensions. -/
theorem template_match_sq_pos (frame : Int → Int → Pixel) (w h fx fy : Int)
    (tmpl : TemplateData) (hpos : 0 < (template_match_sq frame w h fx fy tmpl).n) :
    0 ≤ fx ∧ 0 ≤ fy ∧ fx + tmpl.width ≤ w ∧ fy + tmpl.height ≤ h ∧
    1 ≤ tmpl.width ∧ 1 ≤ tmpl.height := by
  by_cases hoob : fx < 0 ∨ fy < 0 ∨ fx + tmpl.width > w ∨ fy + tmpl.height > h
  · rw [template_match_sq, if_pos hoob] at hpos
    exact absurd hpos (by decide)
  by_cases hz : sumFrameSq (pixPairs frame tmpl fx fy) * sumTmplSq (pixPairs frame tmpl fx fy) = 0
  · rw [template_match_sq, if_neg hoob, if_pos hz] at hpos
    exact absurd hpos (by decide)
  rw [template_match_sq, if_neg hoob, if_neg hz] at hpos
  push_neg at hoob
  have hne : pixPairs frame tmpl fx fy ≠ [] := by
    intro hnil
    rw [hnil] at hpos
    simp [sumProd] at hpos
  have hdims : 1 ≤ tmpl.width ∧ 1 ≤ tmpl.height := by
    by_contra hc
    push_neg at hc
    apply hne
    unfold pixPairs
    rcases le_or_lt 1 tmpl.width with hw | hw
    · have hh := hc hw
      have : tmpl.height.toNat = 0 := by omega
      rw [this]
      rfl
    · have : tmpl.width.toNat = 0 := by omega
      rw [this]
      apply List.eq_nil_iff_forall_not_mem.mpr
      intro q hq
      rw [List.mem_flatMap] at hq
      obtain ⟨ty, _, hin⟩ := hq
      rw [show intRange 0 = [] from rfl] at hin
      simp at hin
  exact ⟨by omega, by omega, by omega, by omega, hdims.1, hdims.2⟩

/-- The search fold keeps the invariant: a strictly positive best score
means the best position is a fully in-frame candidate of a template with
positive dimensions. -/
theorem fold_pos_inbounds (frame : Int → Int → Pixel) (w h : Int)
    (tmpl : TemplateData) (L : List (Int × Int)) (st : TBest)
    (hst : 0 < st.score_sq.n →
      0 ≤ st.x ∧ 0 ≤ st.y ∧ st.x + tmpl.width ≤ w ∧ st.y + tmpl.height ≤ h ∧
      1 ≤ tmpl.width ∧ 1 ≤ tmpl.height) :
    0 < (L.foldl (tmatchStep frame w h tmpl) st).score_sq.n →
      0 ≤ (L.foldl (tmatchStep frame w h tmpl) st).x ∧
      0 ≤ (L.foldl (tmatchStep frame w h tmpl) st).y ∧
      (L.foldl (tmatchStep frame w h tmpl) st).x + tmpl.width ≤ w ∧
      (L.foldl (tmatchStep frame w h tmpl) st).y + tmpl.height ≤ h ∧
      1 ≤ tmpl.width ∧ 1 ≤ tmpl.height := by
  induction L generalizing st with
  | nil => exact hst
  | cons p rest ih =>
    rw [List.foldl_cons]
    unfold tmatchStep
    by_cases hupd : st.score_sq.ltS (template_match_sq frame w h p.1 p.2 tmpl)
    · rw [if_pos hupd]
      refine ih ⟨_, p.1, p.2⟩ ?_
      intro hpos
      exact template_match_sq_pos frame w h p.1 p.2 tmpl hpos
    · rw [if_neg hupd]
      exact ih st hst

/-- The two-phase search: a strictly positive best score puts the best
position fully inside the frame. -/
theorem searchBest_pos_inbounds (frame : Int → Int → Pixel) (w h : Int)
    (tmpl : TemplateData) (hpos : 0 < (searchBest frame w h tmpl).score_sq.n) :
    0 ≤ (searchBest frame w h tmpl).x ∧ 0 ≤ (searchBest frame w h tmpl).y ∧
    (searchBest frame w h tmpl).x + tmpl.width ≤ w ∧
    (searchBest frame w h tmpl).y + tmpl.height ≤ h ∧
    1 ≤ tmpl.width ∧ 1 ≤ tmpl.height := by
  have hco := fold_pos_inbounds frame w h tmpl
    (coarseList (searchRegionOf w h tmpl).x (searchRegionOf w h tmpl).y
      (searchRegionOf w h tmpl).width (searchRegionOf w h tmpl).height
      tmpl.width tmpl.height)
    ⟨⟨0, 1⟩, 0, 0⟩ (by intro hc; exact absurd hc (by decide))
  rw [show (coarseList (searchRegionOf w h tmpl).x (searchRegionOf w h tmpl).y
      (searchRegionOf w h tmpl).width (searchRegionOf w h tmpl).height
      tmpl.width tmpl.height).foldl (tmatchStep frame w h tmpl) ⟨⟨0, 1⟩, 0, 0⟩ =
      coarseBest frame w h tmpl from rfl] at hco
  revert hpos
  unfold searchBest
  split_ifs with hgate
  · exact fold_pos_inbounds frame w h tmpl _ _ hco
  · exact hco

/-- Scanned coordinates lie in the scan rectangle. -/
theorem mem_scanCoords {rx ry rw rh : Int} {p : Int × Int}
    (hp : p ∈ scanCoords rx ry rw rh) :
    rx ≤ p.1 ∧ p.1 < rx + (rw.toNat : Int) ∧ ry ≤ p.2 ∧ p.2 < ry + (rh.toNat : Int) := by
  simp only [scanCoords, List.mem_flatMap, List.mem_map, mem_intRange] at hp
  obtain ⟨dy, hdy, dx, hdx, rfl⟩ := hp
  simp only []
  omega

/-- The scan origin produced by the clamping is non-negative and the scan
rectangle never crosses the right/bottom frame edge. -/
theorem scanClamp_bounds (width height : Int) (region : Rect2D) :
    0 ≤ (scanClamp width height region).x ∧ 0 ≤ (scanClamp width height region).y ∧
    (scanClamp width height region).x + (scanClamp width height region).width ≤ width ∧
    (scanClamp width height region).y + (scanClamp width height region).height ≤ height := by
  unfold scanClamp
  simp only []
  split_ifs <;> omega

/-- The accumulation loop keeps the running sums within count-scaled bounds
of the coordinates of matching pixels. -/
theorem colorLoop_coord_bounds (test : Int × Int → Bool) (cap : Int)
    (L : List (Int × Int)) (acc : ColorAcc) (xlo xhi ylo yhi : Int)
    (hL : ∀ p ∈ L, test p = true → xlo ≤ p.1 ∧ p.1 ≤ xhi ∧ ylo ≤ p.2 ∧ p.2 ≤ yhi)
    (hacc : xlo * (acc.count : Int) ≤ acc.sumX ∧ acc.sumX ≤ xhi * (acc.count : Int) ∧
      ylo * (acc.count : Int) ≤ acc.sumY ∧ acc.sumY ≤ yhi * (acc.count : Int)) :
    xlo * ((colorLoop test cap L acc).count : Int) ≤ (colorLoop test cap L acc).sumX ∧
    (colorLoop test cap L acc).sumX ≤ xhi * ((colorLoop test cap L acc).count : Int) ∧
    ylo * ((colorLoop test cap L acc).count : Int) ≤ (colorLoop test cap L acc).sumY ∧
    (colorLoop test cap L acc).sumY ≤ yhi * ((colorLoop test cap L acc).count : Int) := by
  induction L generalizing acc with
  | nil => exact hacc
  | cons p rest ih =>
    simp only [colorLoop]
    cases hp : test p with
    | false =>
      simp only [Bool.false_eq_true, if_false]
      exact ih acc (fun q hq ht => hL q (List.mem_cons_of_mem _ hq) ht) hacc
    | true =>
      simp only [if_true]
      have hpb := hL p (List.mem_cons_self _ _) hp
      have hacc' : xlo * (((acc.count + 1 : Nat)) : Int) ≤ acc.sumX + p.1 ∧
          acc.sumX + p.1 ≤ xhi * ((acc.count + 1 : Nat) : Int) ∧
          ylo * ((acc.count + 1 : Nat) : Int) ≤ acc.sumY + p.2 ∧
          acc.sumY + p.2 ≤ yhi * ((acc.count + 1 : Nat) : Int) := by
        push_cast
        refine ⟨?_, ?_, ?_, ?_⟩ <;> nlinarith [hacc.1, hacc.2.1, hacc.2.2.1, hacc.2.2.2,
          hpb.1, hpb.2.1, hpb.2.2.1, hpb.2.2.2]
      by_cases hstop : cap ≤ ((acc.count + 1 : Nat) : Int)
      · rw [if_pos hstop]
        exact hacc'
      · rw [if_neg hstop]
        exact ih ⟨acc.count + 1, acc.sumX + p.1, acc.sumY + p.2⟩
          (fun q hq ht => hL q (List.mem_cons_of_mem _ hq) ht) hacc'

/-- When find_color_scalar reports a positive count, it reports a center,
and that center lies inside the frame. -/
theorem find_color_center_inframe (frame : Int → Int → Pixel) (w h : Int)
    (region : Rect2D) (target : ColorHSV) (tol cap : Int)
    (hcnt : 0 < (find_color_scalar frame w h region target tol cap).1) :
    ∃ c, (find_color_scalar frame w h region target tol cap).2 = some c ∧
      0 ≤ c.x ∧ c.x < w ∧ 0 ≤ c.y ∧ c.y < h := by
  obtain ⟨hx0, hy0, hxw, hyh⟩ := scanClamp_bounds w h region
  set rc := scanClamp w h region with hrc
  set coords := scanCoords rc.x rc.y rc.width rc.height with hcoords
  set test : Int × Int → Bool := fun p => colorMatch target tol (frame p.1 p.2) with htest
  set acc := colorLoop test cap coords ⟨0, 0, 0⟩ with haccdef
  have hfc : find_color_scalar frame w h region target tol cap =
      (acc.count, if acc.count > 0 then
        some ⟨Int.tdiv acc.sumX (acc.count : Int), Int.tdiv acc.sumY (acc.count : Int)⟩
      else none) := rfl
  rw [hfc] at hcnt ⊢
  simp only [] at hcnt ⊢
  rw [if_pos hcnt]
  have hne : coords ≠ [] := by
    intro hnil
    have hz : acc = ⟨0, 0, 0⟩ := by rw [haccdef, hnil]; rfl
    rw [hz] at hcnt
    exact absurd hcnt (by decide)
  obtain ⟨p, hp⟩ := List.exists_mem_of_ne_nil coords hne
  have hpb := mem_scanCoords (hcoords ▸ hp)
  have hrwle : rc.x + (rc.width.toNat : Int) ≤ w := by
    rcases le_or_lt rc.width 0 with hw | hw
    · exfalso
      have h1 := hpb.1
      have h2 := hpb.2.1
      rw [Int.toNat_of_nonpos hw] at h2
      omega
    · rw [Int.toNat_of_nonneg hw.le]
      omega
  have hrhle : rc.y + (rc.height.toNat : Int) ≤ h := by
    rcases le_or_lt rc.height 0 with hw | hw
    · exfalso
      have h1 := hpb.2.2.1
      have h2 := hpb.2.2.2
      rw [Int.toNat_of_nonpos hw] at h2
      omega
    · rw [Int.toNat_of_nonneg hw.le]
      omega
  have hb := colorLoop_coord_bounds test cap coords ⟨0, 0, 0⟩
    rc.x (rc.x + (rc.width.toNat : Int) - 1) rc.y (rc.y + (rc.height.toNat : Int) - 1)
    (fun q hq _ => by
      have := mem_scanCoords (hcoords ▸ hq)
      exact ⟨by omega, by omega, by omega, by omega⟩)
    (by refine ⟨by simp, by simp, by simp, by simp⟩)
  rw [← haccdef] at hb
  have hcpos : (0 : Int) < (acc.count : Int) := by exact_mod_cast hcnt
  have hsx0 : 0 ≤ acc.sumX := le_trans (by nlinarith [hb.1]) hb.1
  have hsy0 : 0 ≤ acc.sumY := le_trans (by nlinarith [hb.2.2.1]) hb.2.2.1
  refine ⟨⟨Int.tdiv acc.sumX (acc.count : Int), Int.tdiv acc.sumY (acc.count : Int)⟩,
    rfl, ?_, ?_, ?_, ?_⟩
  · rw [Int.tdiv_eq_ediv hsx0 hcpos.le]
    exact Int.ediv_nonneg hsx0 hcpos.le
  · rw [Int.tdiv_eq_ediv hsx0 hcpos.le]
    have hle := Int.ediv_le_ediv hcpos hb.2.1
    rw [Int.mul_ediv_cancel _ hcpos.ne'] at hle
    linarith [hle, hrwle]
  · rw [Int.tdiv_eq_ediv hsy0 hcpos.le]
    exact Int.ediv_nonneg hsy0 hcpos.le
  · rw [Int.tdiv_eq_ediv hsy0 hcpos.le]
    have hle := Int.ediv_le_ediv hcpos hb.2.2.2
    rw [Int.mul_ediv_cancel _ hcpos.ne'] at hle
    linarith [hle, hrhle]

/-- Positions produced by the edge max-tracking fold with a positive maximum
come from the scanned list. -/
theorem edgeFold_pos (g : Int → Int) (ps : List Int) (st : Int × Int)
    (P : Int → Prop) (hst : 0 < st.1 → P st.2) (hps : ∀ v ∈ ps, P v) :
    0 < (edgeFold g ps st).1 → P (edgeFold g ps st).2 := by
  induction ps generalizing st with
  | nil => exact hst
  | cons v rest ih =>
    unfold edgeFold
    rw [List.foldl_cons]
    by_cases hupd : g v > st.1
    · rw [if_pos hupd]
      exact ih (g v, v) (fun _ => hps v (List.mem_cons_self _ _))
        (fun q hq => hps q (List.mem_cons_of_mem _ hq))
    · rw [if_neg hupd]
      exact ih st hst (fun q hq => hps q (List.mem_cons_of_mem _ hq))

/-- A detected edge's reported position lies strictly inside the clamped
scan rectangle on the scanned axis, hence inside the frame. -/
theorem detect_edge_pos_inframe (frame : Int → Int → Pixel) (w h : Int)
    (region : Rect2D) (horizontal : Bool)
    (hfound : (vision_detect_edge frame w h region horizontal).1 = 0) :
    (horizontal = true → 0 ≤ (vision_detect_edge frame w h region horizontal).2 ∧
      (vision_detect_edge frame w h region horizontal).2 < h) ∧
    (horizontal = false → 0 ≤ (vision_detect_edge frame w h region horizontal).2 ∧
      (vision_detect_edge frame w h region horizontal).2 < w) := by
  obtain ⟨hx0, hy0, hxw, hyh⟩ := scanClamp_bounds w h region
  revert hfound
  unfold vision_detect_edge
  simp only []
  cases horizontal with
  | true =>
    intro hfound
    refine ⟨fun _ => ?_, fun hf => by exact absurd hf (by decide)⟩
    simp only [if_true] at hfound ⊢
    have hmax : 1000 < (edgeFold
        (rowGradSum frame (scanClamp w h region).x (scanClamp w h region).width)
        (rangeExcl ((scanClamp w h region).y + 1)
          ((scanClamp w h region).y + (scanClamp w h region).height - 1)) (0, -1)).1 := by
      by_contra hc
      rw [if_neg hc] at hfound
      exact absurd hfound (by decide)
    have := edgeFold_pos
      (rowGradSum frame (scanClamp w h region).x (scanClamp w h region).width)
      (rangeExcl ((scanClamp w h region).y + 1)
        ((scanClamp w h region).y + (scanClamp w h region).height - 1)) (0, -1)
      (fun v => 0 ≤ v ∧ v < h)
      (fun hpos => by exact absurd hpos (by decide))
      (fun v hv => by rw [mem_rangeExcl] at hv; exact ⟨by omega, by omega⟩)
      (by omega)
    exact this
  | false =>
    intro hfound
    refine ⟨fun hf => by exact absurd hf (by decide), fun _ => ?_⟩
    simp only [Bool.false_eq_true, if_false] at hfound ⊢
    have hmax : 1000 < (edgeFold
        (colGradSum frame (scanClamp w h region).y (scanClamp w h region).height)
        (rangeExcl ((scanClamp w h region).x + 1)
          ((scanClamp w h region).x + (scanClamp w h region).width - 1)) (0, -1)).1 := by
      by_contra hc
      rw [if_neg hc] at hfound
      exact absurd hfound (by decide)
    have := edgeFold_pos
      (colGradSum frame (scanClamp w h region).y (scanClamp w h region).height)
      (rangeExcl ((scanClamp w h region).x + 1)
        ((scanClamp w h region).x + (scanClamp w h region).width - 1)) (0, -1)
      (fun v => 0 ≤ v ∧ v < w)
      (fun hpos => by exact absurd hpos (by decide))
      (fun v hv => by rw [mem_rangeExcl] at hv; exact ⟨by omega, by omega⟩)
      (by omega)
    exact this

/-- Projection helpers for vision_find_template. -/
theorem find_template_confidence (frame : Int → Int → Pixel) (w h : Int)
    (tmpl : TemplateData) (t : Int) :
    (vision_find_template frame w h tmpl t).confidence_sq =
      (searchBest frame w h tmpl).score_sq := rfl

theorem find_template_location (frame : Int → Int → Pixel) (w h : Int)
    (tmpl : TemplateData) (t : Int) :
    (vision_find_template frame w h tmpl t).location =
      ⟨(searchBest frame w h tmpl).x + Int.tdiv tmpl.width 2,
       (searchBest frame w h tmpl).y + Int.tdiv tmpl.height 2⟩ := rfl

theorem find_template_found (frame : Int → Int → Pixel) (w h : Int)
    (tmpl : TemplateData) (t : Int) :
    (vision_find_template frame w h tmpl t).found =
      (decide (tmpl.threshold ≤ 0) ||
        decide (tmpl.threshold ^ 2 * ((searchBest frame w h tmpl).score_sq.d : ℚ) ≤
          ((searchBest frame w h tmpl).score_sq.n : ℚ))) := rfl

/-- C8 (amended): for every trigger dispatch, the squared confidence lies in
[0, 1]; a found color trigger's location (the centroid of the scanned,
frame-clamped rectangle) lies inside the frame; a found template trigger
with a valid template index and a strictly positive threshold has its
location inside the frame; a found edge trigger's location is inside the
frame only on the scanned axis — the perpendicular coordinate is the
midpoint of the UNCLIPPED configured region and may lie outside (see the
counterexample). -/
theorem C8_amended_result_bounds (eng : VisionEngine) (frame : Int → Int → Pixel)
    (w h : Int) (start ttime : Int) (trg : VisualTrigger) :
    ((triggerResult eng frame w h start ttime trg).confidence_sq.n ≤
        (triggerResult eng frame w h start ttime trg).confidence_sq.d ∧
      0 < (triggerResult eng frame w h start ttime trg).confidence_sq.d) ∧
    (∀ c, trg.type_params = .color c →
      (triggerResult eng frame w h start ttime trg).found = true →
      0 ≤ (triggerResult eng frame w h start ttime trg).location.x ∧
      (triggerResult eng frame w h start ttime trg).location.x < w ∧
      0 ≤ (triggerResult eng frame w h start ttime trg).location.y ∧
      (triggerResult eng frame w h start ttime trg).location.y < h) ∧
    (∀ c horiz, trg.type_params = .edge c horiz →
      (triggerResult eng frame w h start ttime trg).found = true →
      (horiz = true → 0 ≤ (triggerResult eng frame w h start ttime trg).location.y ∧
        (triggerResult eng frame w h start ttime trg).location.y < h) ∧
      (horiz = false → 0 ≤ (triggerResult eng frame w h start ttime trg).location.x ∧
        (triggerResult eng frame w h start ttime trg).location.x < w)) ∧
    (∀ idx, trg.type_params = .template idx → ∀ hvalid : idx < eng.templates.length,
      0 < (eng.templates.get ⟨idx, hvalid⟩).threshold →
      (triggerResult eng frame w h start ttime trg).found = true →
      0 ≤ (triggerResult eng frame w h start ttime trg).location.x ∧
      (triggerResult eng frame w h start ttime trg).location.x < w ∧
      0 ≤ (triggerResult eng frame w h start ttime trg).location.y ∧
      (triggerResult eng frame w h start ttime trg).location.y < h) := by
  refine ⟨?_, ?_, ?_, ?_⟩
  · -- confidence bounds for every kind
    cases htp : trg.type_params with
    | template idx =>
      simp only [triggerResult, htp]
      by_cases hvalid : idx < eng.templates.length
      · rw [dif_pos hvalid]
        rw [find_template_confidence]
        exact searchBest_bounds frame w h (eng.templates.get ⟨idx, hvalid⟩)
      · rw [dif_neg hvalid]
        exact ⟨Nat.zero_le _, Nat.one_pos⟩
    | color c =>
      simp only [triggerResult, htp]
      split_ifs <;> exact ⟨by decide, by decide⟩
    | edge c horiz =>
      simp only [triggerResult, htp]
      split_ifs <;> exact ⟨by decide, by decide⟩
    | ocr =>
      simp only [triggerResult, htp]
      exact ⟨Nat.zero_le _, Nat.one_pos⟩
  · -- color triggers
    intro c htp hfound
    simp only [triggerResult, htp] at hfound ⊢
    have hcnt : 0 < (vision_find_color_region frame w h (some trg.region) c 15).1 := by
      simp only [decide_eq_true_eq] at hfound
      omega
    obtain ⟨ctr, hc, hb1, hb2, hb3, hb4⟩ :=
      find_color_center_inframe frame w h trg.region c 15 10000 hcnt
    have : (vision_find_color_region frame w h (some trg.region) c 15).2 = some ctr := hc
    rw [this]
    exact ⟨hb1, hb2, hb3, hb4⟩
  · -- edge triggers
    intro c horiz htp hfound
    simp only [triggerResult, htp] at hfound ⊢
    have hst : (vision_detect_edge frame w h trg.region horiz).1 = 0 := by
      simp only [decide_eq_true_eq] at hfound
      exact hfound
    have hpos := detect_edge_pos_inframe frame w h trg.region horiz hst
    cases horiz with
    | true =>
      refine ⟨fun _ => ?_, fun hf => by exact absurd hf (by decide)⟩
      simp only [if_true]
      exact hpos.1 rfl
    | false =>
      refine ⟨fun hf => by exact absurd hf (by decide), fun _ => ?_⟩
      simp only [Bool.false_eq_true, if_false]
      exact hpos.2 rfl
  · -- template triggers with valid index and positive threshold
    intro idx htp hvalid hthr hfound
    simp only [triggerResult, htp] at hfound ⊢
    rw [dif_pos hvalid] at hfound ⊢
    rw [find_template_found] at hfound
    rw [find_template_location]
    set tmpl := eng.templates.get ⟨idx, hvalid⟩ with htm
    have hd := (searchBest_bounds frame w h tmpl).2
    have hn : 0 < (searchBest frame w h tmpl).score_sq.n := by
      rcases Bool.or_eq_true_iff.mp hfound with h1 | h1
      · exfalso
        rw [decide_eq_true_eq] at h1
        linarith
      · rw [decide_eq_true_eq] at h1
        have hq : (0 : ℚ) < tmpl.threshold ^ 2 * ((searchBest frame w h tmpl).score_sq.d : ℚ) := by
          have : (0 : ℚ) < ((searchBest frame w h tmpl).score_sq.d : ℚ) := by
            exact_mod_cast hd
          positivity
        have : (0 : ℚ) < ((searchBest frame w h tmpl).score_sq.n : ℚ) := lt_of_lt_of_le hq h1
        exact_mod_cast this
    obtain ⟨hbx, hby, hbw, hbh, hw1, hh1⟩ := searchBest_pos_inbounds frame w h tmpl hn
    have htw : 0 ≤ Int.tdiv tmpl.width 2 ∧ Int.tdiv tmpl.width 2 < tmpl.width := by
      rw [Int.tdiv_eq_ediv (by omega) (by omega)]
      omega
    have hth : 0 ≤ Int.tdiv tmpl.height 2 ∧ Int.tdiv tmpl.height 2 < tmpl.height := by
      rw [Int.tdiv_eq_ediv (by omega) (by omega)]
      omega
    refine ⟨?_, ?_, ?_, ?_⟩
    · show 0 ≤ (searchBest frame w h tmpl).x + Int.tdiv tmpl.width 2
      omega
    · show (searchBest frame w h tmpl).x + Int.tdiv tmpl.width 2 < w
      omega
    · show 0 ≤ (searchBest frame w h tmpl).y + Int.tdiv tmpl.height 2
      omega
    · show (searchBest frame w h tmpl).y + Int.tdiv tmpl.height 2 < h
      omega

/-- C8 (witness): the amended bounds applied to a concrete found edge
trigger whose region lies inside the 4x4 frame: the scanned-axis coordinate
of the location is inside the frame. -/
theorem C8_witness :
    (triggerResult ⟨[], []⟩ (fun _ y => if y < 2 then ⟨0, 0, 0⟩ else ⟨255, 255, 255⟩)
        4 4 0 0 ⟨3, .edge ⟨0, 0, 0⟩ true, ⟨0, 0, 4, 4⟩, true⟩).found = true ∧
    0 ≤ (triggerResult ⟨[], []⟩ (fun _ y => if y < 2 then ⟨0, 0, 0⟩ else ⟨255, 255, 255⟩)
        4 4 0 0 ⟨3, .edge ⟨0, 0, 0⟩ true, ⟨0, 0, 4, 4⟩, true⟩).location.y ∧
    (triggerResult ⟨[], []⟩ (fun _ y => if y < 2 then ⟨0, 0, 0⟩ else ⟨255, 255, 255⟩)
        4 4 0 0 ⟨3, .edge ⟨0, 0, 0⟩ true, ⟨0, 0, 4, 4⟩, true⟩).location.y < 4 :=
  have h := C8_amended_result_bounds ⟨[], []⟩
    (fun _ y => if y < 2 then ⟨0, 0, 0⟩ else ⟨255, 255, 255⟩) 4 4 0 0
    ⟨3, .edge ⟨0, 0, 0⟩ true, ⟨0, 0, 4, 4⟩, true⟩
  have hloc := (h.2.2.1 ⟨0, 0, 0⟩ true rfl (by decide)).1 rfl
  ⟨by decide, hloc.1, hloc.2⟩

/-! ## Expression tokenizer (logic_brain.c lines 82-175) -/

/-- Two's-complement wrap of C int32 arithmetic. -/
def wrap32 (x : Int) : Int := (x + 2 ^ 31) % 2 ^ 32 - 2 ^ 31

/-- C isspace on the default locale. -/
def cIsSpace (c : Char) : Bool :=
  c = ' ' || c = '\t' || c = '\n' || c = '\x0b' || c = '\x0c' || c = '\r'

/-- TokenType plus its payload (num_value / str_value). -/
inductive Token where
  | num (n : Int)
  | ident (name : List Char)
  | gtT
  | ltT
  | geT
  | leT
  | eqT
  | neT
  | addT
  | subT
  | andT
  | orT
  | eof
deriving DecidableEq, Repr

/-- The digit-consuming core of strtol: accumulate decimal digits, stop at
the first non-digit. -/
def grabDigits : List Char → Nat → Nat × List Char
  | [], acc => (acc, [])
  | c :: rest, acc =>
    if c.isDigit then grabDigits rest (acc * 10 + (c.toNat - 48)) else (acc, c :: rest)

/-- strtol base 10 as called by the tokenizer (first char is a digit, or a
minus directly followed by a digit); the long result is converted to the
int32 num_value (wrap32).  The clamp of out-of-long-range literals is not
modelled (conditions produced by the grammar stay far below it). -/
def parseNum : List Char → Int × List Char
  | '-' :: rest => (wrap32 (-((grabDigits rest 0).1 : Int)), (grabDigits rest 0).2)
  | s => (wrap32 (((grabDigits s 0).1 : Int)), (grabDigits s 0).2)

/-- str_value collection for identifiers: consume `[A-Za-z0-9_]` while fewer
than 31 characters were copied; the 32nd and later characters are NOT
consumed (the C loop stops advancing expr at i = 31). -/
def grabIdent : List Char → Nat → List Char × List Char
  | [], _ => ([], [])
  | c :: rest, i =>
    if (c.isAlphanum || c = '_') && i < 31 then
      ((grabIdent rest (i + 1)).1.cons c, (grabIdent rest (i + 1)).2)
    else ([], c :: rest)

/-- One token after whitespace skipping, mirroring the branch order of
tokenize (number, two-char operators, one-char operators, identifier,
TOKEN_END consuming nothing on unknown input). -/
def tok1 : List Char → Token × List Char
  | [] => (.eof, [])
  | c :: rest =>
    if c.isDigit || (c = '-' && (match rest with | d :: _ => d.isDigit | [] => false)) then
      (.num (parseNum (c :: rest)).1, (parseNum (c :: rest)).2)
    else
      match c, rest with
      | '>', '=' :: r => (.geT, r)
      | '<', '=' :: r => (.leT, r)
      | '=', '=' :: r => (.eqT, r)
      | '!', '=' :: r => (.neT, r)
      | '&', '&' :: r => (.andT, r)
      | '|', '|' :: r => (.orT, r)
      | '>', r => (.gtT, r)
      | '<', r => (.ltT, r)
      | '+', r => (.addT, r)
      | '-', r => (.subT, r)
      | c, r =>
        if c.isAlpha || c = '_' then
          (.ident (grabIdent (c :: r) 0).1, (grabIdent (c :: r) 0).2)
        else (.eof, c :: r)

/-- tokenize from logic_brain.c lines 104-175: skip whitespace, read one
token. -/
def tokenize (s : List Char) : Token × List Char := tok1 (s.dropWhile cIsSpace)

/-- grabDigits never lengthens the remaining input. -/
theorem grabDigits_le (s : List Char) (acc : Nat) :
    (grabDigits s acc).2.length ≤ s.length := by
  induction s generalizing acc with
  | nil => simp [grabDigits]
  | cons c rest ih =>
    unfold grabDigits
    split_ifs with h
    · exact le_trans (ih _) (by simp)
    · simp

/-- grabIdent never lengthens the remaining input. -/
theorem grabIdent_le (s : List Char) (i : Nat) :
    (grabIdent s i).2.length ≤ s.length := by
  induction s generalizing i with
  | nil => simp [grabIdent]
  | cons c rest ih =>
    unfold grabIdent
    split_ifs with h
    · simp only []
      exact le_trans (ih _) (by simp)
    · simp

/-- parseNum never lengthens the remaining input. -/
theorem parseNum_le (s : List Char) : (parseNum s).2.length ≤ s.length := by
  unfold parseNum
  split
  · exact le_trans (grabDigits_le _ _) (by simp)
  · exact grabDigits_le _ _

/-- tok1 never lengthens the remaining input. -/
theorem tok1_le (s : List Char) : (tok1 s).2.length ≤ s.length := by
  cases s with
  | nil => simp [tok1]
  | cons c rest =>
    simp only [tok1]
    split_ifs with h1
    · exact parseNum_le (c :: rest)
    · split
      all_goals first
        | (simp only []; omega)
        | (simp only [List.length_cons]; omega)
        | (split_ifs with h2
           · exact grabIdent_le _ _
           · simp)

/-- tokenize never lengthens the remaining input. -/
theorem tokenize_le (s : List Char) : (tokenize s).2.length ≤ s.length :=
  le_trans (tok1_le _) (List.dropWhile_sublist (l := s) (p := cIsSpace)).length_le

/-- tok1 consumes at least one character when it returns an arithmetic or
logical operator token. -/
theorem tok1_consume (s : List Char) (t : Token) (r : List Char)
    (heq : tok1 s = (t, r))
    (ht : t = .addT ∨ t = .subT ∨ t = .andT ∨ t = .orT) : r.length < s.length := by
  cases s with
  | nil =>
    simp [tok1] at heq
    rcases ht with h | h | h | h <;> (rw [h] at heq; simp at heq)
  | cons c rest =>
    simp only [tok1] at heq
    split_ifs at heq with h1
    · exfalso
      rw [Prod.mk.injEq] at heq
      obtain ⟨hteq, -⟩ := heq
      rcases ht with h | h | h | h <;> (subst h; exact Token.noConfusion hteq)
    · split at heq
      all_goals try split_ifs at heq with h2
      all_goals rw [Prod.mk.injEq] at heq
      all_goals obtain ⟨hteq, hreq⟩ := heq
      all_goals first
        | (exfalso; rcases ht with h | h | h | h <;> (subst h; exact Token.noConfusion hteq))
        | (subst hreq; simp only [List.length_cons]; omega)

/-- tokenize consumes at least one character when it returns an arithmetic
or logical operator token. -/
theorem tokenize_consume (s : List Char) (t : Token) (r : List Char)
    (heq : tokenize s = (t, r))
    (ht : t = .addT ∨ t = .subT ∨ t = .andT ∨ t = .orT) : r.length < s.length := by
  have h1 := tok1_consume (s.dropWhile cIsSpace) t r heq ht
  have h2 := (List.dropWhile_sublist (l := s) (p := cIsSpace)).length_le
  omega

/-! ## Expression evaluator (logic_brain.c eval_value / eval_condition) -/

/-- eval_value from logic_brain.c lines 178-203: read one token (a number,
an identifier looked up in the blackboard, anything else counting 0), peek
the next token; on `+`/`-` recurse right (strictly right-recursive, int32
arithmetic), otherwise put the token back (return the position after the
atom).  Returns (value, rest of the string). -/
def eval_value (vars : VarTable) (s : List Char) : Int × List Char :=
  let v : Int :=
    match (tokenize s).1 with
    | .num n => n
    | .ident nm => get_variable vars nm
    | _ => 0
  if (tokenize (tokenize s).2).1 = Token.addT then
    (wrap32 (v + (eval_value vars (tokenize (tokenize s).2).2).1),
     (eval_value vars (tokenize (tokenize s).2).2).2)
  else if (tokenize (tokenize s).2).1 = Token.subT then
    (wrap32 (v - (eval_value vars (tokenize (tokenize s).2).2).1),
     (eval_value vars (tokenize (tokenize s).2).2).2)
  else (v, (tokenize s).2)
termination_by s.length
decreasing_by
  · rename_i h
    show (tokenize (tokenize s).2).2.length < s.length
    have ha : (tokenize s).2.length ≤ s.length := tokenize_le s
    have hb := tokenize_consume (tokenize s).2 (tokenize (tokenize s).2).1
      (tokenize (tokenize s).2).2 rfl (Or.inl (by rw [h]))
    omega
  · rename_i h2
    show (tokenize (tokenize s).2).2.length < s.length
    have ha : (tokenize s).2.length ≤ s.length := tokenize_le s
    have hb := tokenize_consume (tokenize s).2 (tokenize (tokenize s).2).1
      (tokenize (tokenize s).2).2 rfl (Or.inr (Or.inl (by rw [h2])))
    omega

/-- eval_value never lengthens the remaining input. -/
theorem eval_value_le (vars : VarTable) (s : List Char) :
    (eval_value vars s).2.length ≤ s.length := by
  have H : ∀ n (s : List Char), s.length = n → (eval_value vars s).2.length ≤ s.length := by
    intro n
    induction n using Nat.strong_induction_on with
    | _ n ih =>
      intro s hlen
      rw [eval_value]
      have ha : (tokenize s).2.length ≤ s.length := tokenize_le s
      split_ifs with h1 h2
      · have hb := tokenize_consume (tokenize s).2 (tokenize (tokenize s).2).1
          (tokenize (tokenize s).2).2 rfl (Or.inl (by rw [h1]))
        have hr := ih (tokenize (tokenize s).2).2.length (by omega) _ rfl
        simp only []
        omega
      · have hb := tokenize_consume (tokenize s).2 (tokenize (tokenize s).2).1
          (tokenize (tokenize s).2).2 rfl (Or.inr (Or.inl (by rw [h2])))
        have hr := ih (tokenize (tokenize s).2).2.length (by omega) _ rfl
        simp only []
        omega
      · exact ha
  exact H s.length s rfl

/-- eval_condition from logic_brain.c lines 206-241: evaluate the left
value; a TOKEN_END next means `left != 0`; otherwise consume the operator
token, evaluate the right value, compute the comparison (a non-relational
operator yields 0 through the switch default), then on `&&`/`||` combine
with a strictly right-recursive evaluation of the remainder. -/
def eval_condition (vars : VarTable) (s : List Char) : Bool :=
  let left := (eval_value vars s).1
  let s1 := (eval_value vars s).2
  let op := (tokenize s1).1
  let s2 := (tokenize s1).2
  if op = Token.eof then decide (left ≠ 0)
  else
    let right := (eval_value vars s2).1
    let s3 := (eval_value vars s2).2
    let result : Bool :=
      match op with
      | .gtT => decide (left > right)
      | .ltT => decide (left < right)
      | .geT => decide (left ≥ right)
      | .leT => decide (left ≤ right)
      | .eqT => decide (left = right)
      | .neT => decide (left ≠ right)
      | _ => false
    if (tokenize s3).1 = Token.andT then
      result && eval_condition vars (tokenize s3).2
    else if (tokenize s3).1 = Token.orT then
      result || eval_condition vars (tokenize s3).2
    else result
termination_by s.length
decreasing_by
  · rename_i hand
    show (tokenize (eval_value vars (tokenize (eval_value vars s).2).2).2).2.length < s.length
    have h1 := eval_value_le vars s
    have h2 := tokenize_le (eval_value vars s).2
    have h3 := eval_value_le vars (tokenize (eval_value vars s).2).2
    have h4 := tokenize_consume (eval_value vars (tokenize (eval_value vars s).2).2).2
      (tokenize (eval_value vars (tokenize (eval_value vars s).2).2).2).1
      (tokenize (eval_value vars (tokenize (eval_value vars s).2).2).2).2 rfl
      (Or.inr (Or.inr (Or.inl (by rw [hand]))))
    omega
  · rename_i hor
    show (tokenize (eval_value vars (tokenize (eval_value vars s).2).2).2).2.length < s.length
    have h1 := eval_value_le vars s
    have h2 := tokenize_le (eval_value vars s).2
    have h3 := eval_value_le vars (tokenize (eval_value vars s).2).2
    have h4 := tokenize_consume (eval_value vars (tokenize (eval_value vars s).2).2).2
      (tokenize (eval_value vars (tokenize (eval_value vars s).2).2).2).1
      (tokenize (eval_value vars (tokenize (eval_value vars s).2).2).2).2 rfl
      (Or.inr (Or.inr (Or.inr (by rw [hor]))))
    omega

/-! ## Rule evaluator, FSM, brain_process (logic_brain.c) -/

/-- DecisionRule from shared_bridge.h. -/
structure DecisionRule where
  condition : List Char
  action : ActionType
  action_target : Point2D
  priority : Int

/-- The brain's global state: loaded rules, blackboard, FSM state. -/
structure BrainState where
  rules : List DecisionRule
  vars : VarTable
  state : GameState

/-- The all-zero ActionCommand produced by `memset(&action, 0, ...)` with
`action.type = ACTION_NONE`. -/
def zeroAction : ActionCommand := ⟨.none, ⟨0, 0⟩, ⟨0, 0⟩, 0, 0, 0⟩

/-- The exact rational freestanding for the C literal `0.3f` assigned to
randomize (the spec's 0.3; built without ℚ division so that it evaluates). -/
def rand30 : ℚ := ⟨3, 10, by decide, by decide⟩

/-- One fixed-digit-count-free decimal print (snprintf %u), structurally
recursive on a fuel that always suffices. -/
def printNatAux : Nat → Nat → List Char → List Char
  | 0, _, acc => acc
  | fuel + 1, n, acc =>
    if n < 10 then Char.ofNat (48 + n) :: acc
    else printNatAux fuel (n / 10) (Char.ofNat (48 + n % 10) :: acc)

/-- Decimal digits of a natural number (snprintf %u). -/
def printNat (n : Nat) : List Char := printNatAux (n + 1) n []

/-- The per-result blackboard update of brain_evaluate (lines 348-371):
set trigger_<id>_x/_y/_found for a found result, plus the hard-coded bird
(id 1) and gap (id 2) names. -/
def updateVarsOne (vars : VarTable) (r : VisionResult) : VarTable :=
  if r.found then
    let base := ['t', 'r', 'i', 'g', 'g', 'e', 'r', '_'] ++ printNat r.trigger_id
    let vars1 := set_variable vars (base ++ ['_', 'x']) r.location.x
    let vars2 := set_variable vars1 (base ++ ['_', 'y']) r.location.y
    let vars3 := set_variable vars2 (base ++ ['_', 'f', 'o', 'u', 'n', 'd']) 1
    if r.trigger_id = 1 then
      set_variable (set_variable vars3 ['b', 'i', 'r', 'd', '_', 'x'] r.location.x)
        ['b', 'i', 'r', 'd', '_', 'y'] r.location.y
    else if r.trigger_id = 2 then
      set_variable
        (set_variable vars3 ['g', 'a', 'p', '_', 'c', 'e', 'n', 't', 'e', 'r', '_', 'x']
          r.location.x)
        ['g', 'a', 'p', '_', 'c', 'e', 'n', 't', 'e', 'r', '_', 'y'] r.location.y
    else vars3
  else vars

/-- The variable-update loop over the results. -/
def updateVars (vars : VarTable) (results : List VisionResult) : VarTable :=
  results.foldl updateVarsOne vars

/-- The rule-selection pass of brain_evaluate (lines 373-384): iterate the
rules; a rule whose priority strictly exceeds the best priority so far
(initially -1) has its condition evaluated; on success it becomes the best
rule. -/
def selectRule (vars : VarTable) (rules : List DecisionRule) : Option DecisionRule :=
  (rules.foldl
    (fun st r =>
      if r.priority > st.1 then
        (if eval_condition vars r.condition then (r.priority, some r) else st)
      else st)
    ((-1 : Int), (none : Option DecisionRule))).2

/-- brain_evaluate from logic_brain.c lines 338-394: zeroed ACTION_NONE
command on a null result pointer or non-positive count; otherwise update the
blackboard from the first `count` results, run the rule pass, and on a best
rule emit {type, start = action_target, duration_ms = 50, randomize = 0.3}
with the zeroed end/hold fields.  Returns the command and the new
blackboard (the C mutates the global table).  A count exceeding the array
length would read out of bounds in C; the model reads the existing
elements. -/
def brain_evaluate (rules : List DecisionRule) (vars : VarTable)
    (results : Option (List VisionResult)) (count : Int) : ActionCommand × VarTable :=
  if results = none ∨ count ≤ 0 then (zeroAction, vars)
  else
    let rs := (results.getD []).take count.toNat
    let vars2 := updateVars vars rs
    match selectRule vars2 rules with
    | some r =>
      ({ type := r.action, start := r.action_target, end_ := ⟨0, 0⟩,
         duration_ms := 50, hold_ms := 0, randomize := rand30 }, vars2)
    | none => (zeroAction, vars2)

/-- fsm_transition from logic_brain.c lines 259-292. -/
def fsm_transition (current : GameState) (vision_results action_pending : Int) :
    GameState :=
  match current with
  | .idle => if vision_results > 0 then .detecting else current
  | .detecting =>
    if action_pending ≠ 0 then .action_pending
    else if vision_results = 0 then .idle
    else current
  | .action_pending => .executing
  | .executing => .detecting
  | .paused => current
  | .error => current

/-- brain_process from logic_brain.c lines 396-431: compute has_results
(positive num_results and every populated slot found), evaluate the rules,
advance the FSM, copy the action into the header only when one is pending
and the new state is ACTION_PENDING, publish the state and latencies, and
set result_ready = 1.  `tick` numbers its two get_time_ns calls. -/
def brain_process (st : BrainState) (shm : SharedMemoryHeader) (tick : Nat → Int) :
    Int × BrainState × SharedMemoryHeader :=
  let start := tick 0
  let has_results : Int :=
    if 0 < shm.results.length ∧ shm.results.all (fun r => r.found) then 1 else 0
  let ev := brain_evaluate st.rules st.vars (some shm.results) (shm.results.length : Int)
  let action_pending : Int := if ev.1.type ≠ ActionType.none then 1 else 0
  let new_state := fsm_transition st.state has_results action_pending
  (0,
   { st with state := new_state, vars := ev.2 },
   { shm with
      pending_action :=
        if action_pending ≠ 0 ∧ new_state = GameState.action_pending then ev.1
        else shm.pending_action,
      current_state := new_state,
      brain_latency_ns := tick 1 - start,
      total_latency_ns := shm.vision_latency_ns + (tick 1 - start),
      result_ready := 1 })

/-- eval_condition on the literal condition "1" is true, for every
blackboard (the equation is stated separately because well-founded
definitions do not reduce definitionally). -/
theorem eval_condition_lit_one (vars : VarTable) : eval_condition vars ['1'] = true := by
  have hv : eval_value vars ['1'] = (1, []) := by
    rw [eval_value]; rfl
  rw [eval_condition, hv]
  rfl

/-- Spec-modelled selection step: keep the incumbent unless the new rule
has strictly higher priority. -/
def pickStep (ob : Option DecisionRule) (r : DecisionRule) : Option DecisionRule :=
  match ob with
  | none => some r
  | some b => if b.priority < r.priority then some r else some b

/-- Spec-modelled selection: the leftmost rule of maximal priority in a
list (ties broken toward the earlier rule). -/
def pickBest (l : List DecisionRule) : Option DecisionRule := l.foldl pickStep none

/-- The rule-selection fold equals the leftmost-max pick over the rules
whose priority exceeds -1 and whose condition holds, for every accumulator
reachable by the fold. -/
theorem selectRule_fold_spec (vars : VarTable) :
    ∀ (rules : List DecisionRule) (p : Int) (ob : Option DecisionRule),
      ((p = -1 ∧ ob = none) ∨ ∃ b, ob = some b ∧ p = b.priority ∧ -1 < b.priority) →
      (rules.foldl
        (fun st r =>
          if r.priority > st.1 then
            (if eval_condition vars r.condition then (r.priority, some r) else st)
          else st)
        (p, ob)).2 =
      (rules.filter
        (fun r => decide (-1 < r.priority) && eval_condition vars r.condition)).foldl
        pickStep ob := by
  intro rules
  induction rules with
  | nil => intro p ob _; rfl
  | cons r rest ih =>
    intro p ob hinv
    simp only [List.foldl_cons, List.filter_cons]
    have hpm1 : -1 ≤ p := by
      rcases hinv with ⟨hp1, -⟩ | ⟨b, -, hpb, hbm1⟩ <;> omega
    by_cases hp : r.priority > p
    · by_cases hc : eval_condition vars r.condition = true
      · have hgood : (decide (-1 < r.priority) && eval_condition vars r.condition) = true := by
          rw [hc, Bool.and_true, decide_eq_true_eq]; omega
        rw [if_pos hp, if_pos hc, hgood, if_pos rfl, List.foldl_cons]
        have hstep : pickStep ob r = some r := by
          rcases hinv with ⟨-, hob⟩ | ⟨b, hob, hpb, -⟩
          · subst hob; rfl
          · subst hob
            show (if b.priority < r.priority then some r else some b) = some r
            rw [if_pos (by omega)]
        rw [hstep]
        exact ih r.priority (some r) (Or.inr ⟨r, rfl, rfl, by omega⟩)
      · have hgood : (decide (-1 < r.priority) && eval_condition vars r.condition) = false := by
          rw [Bool.and_eq_false_iff]
          right
          exact Bool.not_eq_true _ |>.mp hc
        rw [if_pos hp, if_neg hc, hgood, if_neg (by exact Bool.false_ne_true)]
        exact ih p ob hinv
    · rw [if_neg hp]
      by_cases hg : (decide (-1 < r.priority) && eval_condition vars r.condition) = true
      · rw [hg, if_pos rfl, List.foldl_cons]
        have hrp : -1 < r.priority := by
          rw [Bool.and_eq_true, decide_eq_true_eq] at hg
          exact hg.1
        have hstep : pickStep ob r = ob := by
          rcases hinv with ⟨hp1, hob⟩ | ⟨b, hob, hpb, -⟩
          · exfalso; omega
          · subst hob
            show (if b.priority < r.priority then some r else some b) = some b
            rw [if_neg (by omega)]
        rw [hstep]
        exact ih p ob hinv
      · have hg2 : (decide (-1 < r.priority) && eval_condition vars r.condition) = false :=
          Bool.not_eq_true _ |>.mp hg
        rw [hg2, if_neg (by exact Bool.false_ne_true)]
        exact ih p ob hinv

/-- selectRule selects the leftmost highest-priority rule among those with
priority above -1 whose condition evaluates true. -/
theorem selectRule_eq_pickBest (vars : VarTable) (rules : List DecisionRule) :
    selectRule vars rules =
      pickBest (rules.filter
        (fun r => decide (-1 < r.priority) && eval_condition vars r.condition)) :=
  selectRule_fold_spec vars rules (-1) none (Or.inl ⟨rfl, rfl⟩)

/-- A not-found result slot used as brain_evaluate input data. -/
def quietResult : VisionResult := ⟨3, false, ⟨0, 1⟩, ⟨0, 0⟩, ⟨0, 0, 0, 0⟩, 0⟩

/-- C4: the claim says brain_evaluate selects the true-condition rule of
highest priority; but best_priority starts at -1, so a lone rule of
priority -5 whose condition "1" is true is never selected and the emitted
command has type NONE instead of the rule's TAP. -/
theorem C4_counterexample :
    eval_condition [] ['1'] = true ∧
    (brain_evaluate [⟨['1'], ActionType.tap, ⟨9, 9⟩, -5⟩] []
        (some [quietResult]) 1).1.type = ActionType.none ∧
    ActionType.none ≠ ActionType.tap :=
  ⟨eval_condition_lit_one [], rfl, by decide⟩

/-- C4 (amended): for a non-null result pointer and positive count,
brain_evaluate updates the blackboard from the results, then selects the
leftmost highest-priority rule among those whose priority EXCEEDS -1 and
whose condition evaluates true (rules of priority at most -1 are never
selected, the best-priority accumulator starting at -1); a selected rule
yields { type = rule.action, start = rule.action_target, end = (0,0),
duration_ms = 50, hold_ms = 0, randomize = 0.3 }, otherwise the zeroed
NONE command. -/
theorem C4_amended_brain_evaluate (rules : List DecisionRule) (vars : VarTable)
    (rs : List VisionResult) (count : Int) (hc : 0 < count) :
    brain_evaluate rules vars (some rs) count =
      (match pickBest (rules.filter
          (fun r => decide (-1 < r.priority) &&
            eval_condition (updateVars vars (rs.take count.toNat)) r.condition)) with
       | some r =>
         ({ type := r.action, start := r.action_target, end_ := ⟨0, 0⟩,
            duration_ms := 50, hold_ms := 0, randomize := rand30 },
          updateVars vars (rs.take count.toNat))
       | none => (zeroAction, updateVars vars (rs.take count.toNat))) := by
  unfold brain_evaluate
  rw [if_neg (not_or.mpr ⟨fun h => Option.noConfusion h, by omega⟩)]
  simp only [Option.getD_some]
  rw [selectRule_eq_pickBest]

/-- C4 (witness): the amended characterization applied to the empty rule
table, empty blackboard and a single-slot count of 1. -/
theorem C4_witness :
    (0 : Int) < 1 ∧
    brain_evaluate [] [] (some []) 1 =
      (match pickBest (List.filter
          (fun r => decide (-1 < r.priority) &&
            eval_condition (updateVars [] (List.take (1 : Int).toNat [])) r.condition) []) with
       | some r =>
         ({ type := r.action, start := r.action_target, end_ := ⟨0, 0⟩,
            duration_ms := 50, hold_ms := 0, randomize := rand30 },
          updateVars [] (List.take (1 : Int).toNat []))
       | none => (zeroAction, updateVars [] (List.take (1 : Int).toNat []))) :=
  ⟨by decide, C4_amended_brain_evaluate [] [] [] 1 (by decide)⟩

/-- C10: brain_evaluate called with a null results pointer or a
non-positive count returns the zeroed ACTION_NONE command (every non-type
field zero) without touching the blackboard, for every rule table. -/
theorem C10_guard_returns_none (rules : List DecisionRule) (vars : VarTable)
    (results : Option (List VisionResult)) (count : Int)
    (h : results = none ∨ count ≤ 0) :
    brain_evaluate rules vars results count = (zeroAction, vars) := by
  unfold brain_evaluate
  rw [if_pos h]

/-- C10 (witness): the guard theorem applied to a null pointer, count 3 and
a one-entry blackboard, which comes back unchanged. -/
theorem C10_witness :
    ((none : Option (List VisionResult)) = none ∨ (3 : Int) ≤ 0) ∧
    brain_evaluate [] [(['a'], 5)] none 3 = (zeroAction, [(['a'], 5)]) :=
  ⟨Or.inl rfl, C10_guard_returns_none [] [(['a'], 5)] none 3 (Or.inl rfl)⟩

/-! ## The producer/consumer handoff cycle (logic_brain.c main, lines 476-495) -/

/-- vision_process_frame on a ready frame leaves both handshake flags as it
found them (it writes only results and the vision latency). -/
theorem vision_flags (eng : VisionEngine) (shm : SharedMemoryHeader)
    (tick : Nat → Int) (h : ¬ shm.frame_ready = 0) :
    (vision_process_frame eng shm tick).2.frame_ready = shm.frame_ready ∧
    (vision_process_frame eng shm tick).2.result_ready = shm.result_ready := by
  unfold vision_process_frame
  rw [if_neg h]
  exact ⟨rfl, rfl⟩

/-- brain_process keeps frame_ready and unconditionally sets
result_ready = 1 as its last store. -/
theorem brain_flags (st : BrainState) (shm : SharedMemoryHeader) (tick : Nat → Int) :
    (brain_process st shm tick).2.2.frame_ready = shm.frame_ready ∧
    (brain_process st shm tick).2.2.result_ready = 1 :=
  ⟨rfl, rfl⟩

/-- The six observation points of one full handoff cycle: the initial
header; after the producer publishes a frame (frame_ready = 1); after
vision_process_frame; after brain_process; after the consumer loop clears
frame_ready; after the producer consumes the results and clears
result_ready. -/
def cycleStates (eng : VisionEngine) (st : BrainState) (shm0 : SharedMemoryHeader)
    (frame : Int → Int → Pixel) (fn : Nat) (vtick btick : Nat → Int) :
    List SharedMemoryHeader :=
  let s1 := { shm0 with frame := frame, frame_number := fn, frame_ready := 1 }
  let s2 := (vision_process_frame eng s1 vtick).2
  let s3 := (brain_process st s2 btick).2.2
  let s4 := { s3 with frame_ready := 0 }
  let s5 := { s4 with result_ready := 0 }
  [shm0, s1, s2, s3, s4, s5]

/-- An idle header for concrete cycle runs: both flags clear, no results. -/
def shmC9 : SharedMemoryHeader :=
  { frame_number := 0, frame_ready := 0, result_ready := 0, current_state := .idle,
    frame_width := 1, frame_height := 1, vision_latency_ns := 0, brain_latency_ns := 0,
    total_latency_ns := 0, results := [], pending_action := zeroAction,
    frame := fun _ _ => ⟨0, 0, 0⟩ }

/-- C9: the claim says no observation point of the cycle sees both flags
set; but brain_process sets result_ready = 1 while the loop clears
frame_ready only afterwards, so the observation point right after
brain_process (the fourth of the cycle) sees frame_ready = 1 and
result_ready = 1 simultaneously. -/
theorem C9_counterexample :
    ((cycleStates ⟨[], []⟩ ⟨[], [], .idle⟩ shmC9 (fun _ _ => ⟨0, 0, 0⟩) 1
        (fun _ => 0) (fun _ => 0)).map
      (fun s => (s.frame_ready, s.result_ready))) =
      [(0, 0), (1, 0), (1, 0), (1, 1), (0, 1), (0, 0)] ∧
    ((1, 1) ∈ [((0 : Nat), (0 : Nat)), (1, 0), (1, 0), (1, 1), (0, 1), (0, 0)]) :=
  ⟨by decide, by decide⟩

/-- C9 (amended): for every engine, brain state, clocks and idle starting
header (both flags clear), the flag trace of the six observation points of
a full handoff cycle is exactly (0,0), (1,0), (1,0), (1,1), (0,1), (0,0):
both flags are seen set simultaneously at exactly one point - after
brain_process stores result_ready = 1 and before the consumer loop clears
frame_ready - and at no other point. -/
theorem C9_amended_flag_trace (eng : VisionEngine) (st : BrainState)
    (shm0 : SharedMemoryHeader) (frame : Int → Int → Pixel) (fn : Nat)
    (vtick btick : Nat → Int) (h0 : shm0.frame_ready = 0)
    (h1 : shm0.result_ready = 0) :
    (cycleStates eng st shm0 frame fn vtick btick).map
      (fun s => (s.frame_ready, s.result_ready)) =
      [(0, 0), (1, 0), (1, 0), (1, 1), (0, 1), (0, 0)] := by
  have hv := vision_flags eng
    { shm0 with frame := frame, frame_number := fn, frame_ready := 1 } vtick
    (by exact one_ne_zero)
  have hb := brain_flags st
    (vision_process_frame eng
      { shm0 with frame := frame, frame_number := fn, frame_ready := 1 } vtick).2 btick
  simp only [cycleStates, List.map_cons, List.map_nil, List.cons.injEq, Prod.mk.injEq]
  exact ⟨⟨h0, h1⟩, ⟨trivial, h1⟩, ⟨hv.1, hv.2.trans h1⟩, ⟨hb.1.trans hv.1, hb.2⟩,
    ⟨trivial, hb.2⟩, trivial⟩

/-- C9 (witness): the amended flag trace applied to a concrete idle header
with an empty engine and rule table. -/
theorem C9_witness :
    shmC9.frame_ready = 0 ∧ shmC9.result_ready = 0 ∧
    (cycleStates ⟨[], []⟩ ⟨[], [], .detecting⟩ shmC9 (fun _ _ => ⟨9, 9, 9⟩) 2
        (fun n => n) (fun n => n + 5)).map
      (fun s => (s.frame_ready, s.result_ready)) =
      [(0, 0), (1, 0), (1, 0), (1, 1), (0, 1), (0, 0)] :=
  ⟨rfl, rfl,
    C9_amended_flag_trace ⟨[], []⟩ ⟨[], [], .detecting⟩ shmC9 (fun _ _ => ⟨9, 9, 9⟩) 2
      (fun n => n) (fun n => n + 5) rfl rfl⟩

/-! ## Grammatical condition strings (C6): ASTs, printing, denotation -/

/-- Decimal value of a digit string, exactly as grabDigits accumulates it. -/
def digitVal (ds : List Char) : Nat := ds.foldl (fun a c => a * 10 + (c.toNat - 48)) 0

/-- An atom of the expression grammar: a decimal numeral (kept as its digit
characters) or a variable name. -/
inductive Atom where
  | num (ds : List Char)
  | var (name : List Char)

/-- A value of the grammar: `value := atom (('+' | '-') value)?` - the
right recursion of the source is built into the shape. -/
inductive Val where
  | atom (a : Atom)
  | add (a : Atom) (v : Val)
  | sub (a : Atom) (v : Val)

/-- The six relational operators. -/
inductive RelOp where
  | gt | lt | ge | le | eq | ne

/-- The two logical connectives. -/
inductive LogOp where
  | and | or

/-- A grammatical condition: `cond := value relop value (('&&' | '||') cond)?`,
again with the right recursion in the shape. -/
inductive Cond where
  | cmp (l : Val) (o : RelOp) (r : Val)
  | seq (l : Val) (o : RelOp) (r : Val) (lo : LogOp) (rest : Cond)

def printAtom : Atom → List Char
  | .num ds => ds
  | .var nm => nm

def relChars : RelOp → List Char
  | .gt => ['>']
  | .lt => ['<']
  | .ge => ['>', '=']
  | .le => ['<', '=']
  | .eq => ['=', '=']
  | .ne => ['!', '=']

def logChars : LogOp → List Char
  | .and => ['&', '&']
  | .or => ['|', '|']

/-- Print a value with single-space token separation. -/
def printVal : Val → List Char
  | .atom a => printAtom a
  | .add a v => printAtom a ++ ' ' :: '+' :: ' ' :: printVal v
  | .sub a v => printAtom a ++ ' ' :: '-' :: ' ' :: printVal v

/-- Print a condition with single-space token separation. -/
def printCond : Cond → List Char
  | .cmp l o r => printVal l ++ ' ' :: (relChars o ++ ' ' :: printVal r)
  | .seq l o r lo rest =>
    printVal l ++ ' ' :: (relChars o ++ ' ' ::
      (printVal r ++ ' ' :: (logChars lo ++ ' ' :: printCond rest)))

/-- Spec-side denotation of an atom: the numeral's decimal value, or the
blackboard value of the variable. -/
def denoteAtom (vars : VarTable) : Atom → Int
  | .num ds => (digitVal ds : Int)
  | .var nm => get_variable vars nm

/-- Spec-side denotation of a value: strictly right-recursive, so
`a - b + c` denotes `a - (b + c)` (int32 arithmetic). -/
def denoteVal (vars : VarTable) : Val → Int
  | .atom a => denoteAtom vars a
  | .add a v => wrap32 (denoteAtom vars a + denoteVal vars v)
  | .sub a v => wrap32 (denoteAtom vars a - denoteVal vars v)

def relDen (o : RelOp) (l r : Int) : Bool :=
  match o with
  | .gt => decide (l > r)
  | .lt => decide (l < r)
  | .ge => decide (l ≥ r)
  | .le => decide (l ≤ r)
  | .eq => decide (l = r)
  | .ne => decide (l ≠ r)

/-- Spec-side denotation of a condition: `v1 relop v2 LOGICAL rest`
denotes `(v1 relop v2) LOGICAL (denotation of rest)` - strictly
right-recursive, no precedence between the connectives. -/
def denoteCond (vars : VarTable) : Cond → Bool
  | .cmp l o r => relDen o (denoteVal vars l) (denoteVal vars r)
  | .seq l o r lo rest =>
    match lo with
    | .and => relDen o (denoteVal vars l) (denoteVal vars r) && denoteCond vars rest
    | .or => relDen o (denoteVal vars l) (denoteVal vars r) || denoteCond vars rest

/-- Well-formed atom: a nonempty digit string whose value fits int32, or an
identifier of at most 31 characters starting with a letter or underscore. -/
def wfAtom : Atom → Bool
  | .num ds => !ds.isEmpty && ds.all (fun c => c.isDigit) && decide (digitVal ds < 2 ^ 31)
  | .var nm =>
    (match nm with
     | [] => false
     | c :: _ => c.isAlpha || c = '_') &&
    nm.all (fun c => c.isAlphanum || c = '_') && decide (nm.length ≤ 31)

def wfVal : Val → Bool
  | .atom a => wfAtom a
  | .add a v => wfAtom a && wfVal v
  | .sub a v => wfAtom a && wfVal v

def wfCond : Cond → Bool
  | .cmp l _ r => wfVal l && wfVal r
  | .seq l _ r _ rest => wfVal l && wfVal r && wfCond rest

/-- The single token a printed atom reads back as. -/
def atomTok : Atom → Token
  | .num ds => .num (digitVal ds)
  | .var nm => .ident nm

def relTok : RelOp → Token
  | .gt => .gtT
  | .lt => .ltT
  | .ge => .geT
  | .le => .leT
  | .eq => .eqT
  | .ne => .neT

def logTok : LogOp → Token
  | .and => .andT
  | .or => .orT

/-- Boundary check: the remaining input is empty or starts with a space. -/
def headSep : List Char → Bool
  | [] => true
  | c :: _ => c = ' '

/-- A character passing cIsSpace is one of the six space characters. -/
theorem space_chars {c : Char} (h : cIsSpace c = true) :
    c = ' ' ∨ c = '\t' ∨ c = '\n' ∨ c = '\x0b' ∨ c = '\x0c' ∨ c = '\r' := by
  unfold cIsSpace at h
  simp only [Bool.or_eq_true, decide_eq_true_eq] at h
  tauto

/-- A decimal digit is not a space character. -/
theorem digit_not_space {c : Char} (h : c.isDigit = true) : cIsSpace c = false := by
  cases hsp : cIsSpace c
  · rfl
  · rcases space_chars hsp with h1 | h1 | h1 | h1 | h1 | h1 <;>
      (subst h1; exact absurd h (by decide))

/-- A letter is not a decimal digit. -/
theorem alpha_not_digit {c : Char} (h : c.isAlpha = true) : c.isDigit = false := by
  simp only [Char.isAlpha, Char.isUpper, Char.isLower, Char.isDigit, Bool.or_eq_true,
    Bool.and_eq_true, decide_eq_true_eq, ge_iff_le, UInt32.le_def, BitVec.le_def] at h ⊢
  rw [Bool.and_eq_false_iff]
  simp only [decide_eq_false_iff_not, UInt32.le_def, BitVec.le_def,
    show (UInt32.toBitVec 48).toNat = 48 from rfl,
    show (UInt32.toBitVec 57).toNat = 57 from rfl,
    show (UInt32.toBitVec 65).toNat = 65 from rfl,
    show (UInt32.toBitVec 90).toNat = 90 from rfl,
    show (UInt32.toBitVec 97).toNat = 97 from rfl,
    show (UInt32.toBitVec 122).toNat = 122 from rfl] at h ⊢
  omega

/-- A letter is not a space character. -/
theorem alpha_not_space {c : Char} (h : c.isAlpha = true) : cIsSpace c = false := by
  cases hsp : cIsSpace c
  · rfl
  · rcases space_chars hsp with h1 | h1 | h1 | h1 | h1 | h1 <;>
      (subst h1; exact absurd h (by decide))

/-- An identifier head (letter or underscore) is neither a digit, a space,
nor a minus sign. -/
theorem identHead_facts {c : Char} (h : c.isAlpha = true ∨ c = '_') :
    c.isDigit = false ∧ cIsSpace c = false ∧ (c = '-' → False) := by
  rcases h with h | h
  · refine ⟨alpha_not_digit h, alpha_not_space h, fun he => ?_⟩
    subst he; exact absurd h (by decide)
  · subst h; exact ⟨by decide, by decide, by decide⟩

/-- grabDigits consumes exactly an all-digit prefix when the remainder
starts with a space (or is empty), accumulating its decimal value. -/
theorem grabDigits_append (ds : List Char) :
    ∀ (acc : Nat) (rest : List Char), ds.all (fun c => c.isDigit) = true →
      headSep rest = true →
      grabDigits (ds ++ rest) acc =
        (ds.foldl (fun a c => a * 10 + (c.toNat - 48)) acc, rest) := by
  induction ds with
  | nil =>
    intro acc rest _ hsep
    cases rest with
    | nil => rfl
    | cons c t =>
      have hc : c = ' ' := of_decide_eq_true hsep
      subst hc
      rfl
  | cons d ds ih =>
    intro acc rest hall hsep
    rw [List.all_cons, Bool.and_eq_true] at hall
    rw [List.cons_append]
    unfold grabDigits
    rw [if_pos hall.1, ih _ rest hall.2 hsep, List.foldl_cons]

/-- grabIdent consumes exactly an identifier of at most 31 remaining
characters when the remainder starts with a space (or is empty). -/
theorem grabIdent_append (nm : List Char) :
    ∀ (i : Nat) (rest : List Char),
      nm.all (fun c => c.isAlphanum || c = '_') = true →
      i + nm.length ≤ 31 → headSep rest = true →
      grabIdent (nm ++ rest) i = (nm, rest) := by
  induction nm with
  | nil =>
    intro i rest _ _ hsep
    cases rest with
    | nil => rfl
    | cons c t =>
      have hc : c = ' ' := of_decide_eq_true hsep
      subst hc
      rfl
  | cons c nm ih =>
    intro i rest hall hlen hsep
    rw [List.all_cons, Bool.and_eq_true] at hall
    rw [List.cons_append]
    unfold grabIdent
    rw [if_pos (by rw [hall.1, Bool.true_and]; exact decide_eq_true (by
      simp only [List.length_cons] at hlen; omega))]
    rw [ih (i + 1) rest hall.2 (by simp only [List.length_cons] at hlen; omega) hsep]

/-- wrap32 is the identity on values already in int32 range. -/
theorem wrap32_small {x : Int} (h0 : -2 ^ 31 ≤ x) (h1 : x < 2 ^ 31) : wrap32 x = x := by
  unfold wrap32
  omega

/-- Skipping a leading space does not change the token read. -/
theorem tokenize_cons_space (s : List Char) : tokenize (' ' :: s) = tokenize s := by
  unfold tokenize
  rw [List.dropWhile_cons]
  simp only [show cIsSpace ' ' = true from rfl, if_true]

/-- A printed well-formed atom followed by a space (or the end) reads back
as exactly its token, leaving the remainder untouched. -/
theorem tokenize_print_atom (a : Atom) (rest : List Char) (ha : wfAtom a = true)
    (hsep : headSep rest = true) :
    tokenize (printAtom a ++ rest) = (atomTok a, rest) := by
  cases a with
  | num ds =>
    simp only [wfAtom, Bool.and_eq_true, Bool.not_eq_true',
      decide_eq_true_eq] at ha
    obtain ⟨⟨hne, hall⟩, hlt⟩ := ha
    cases ds with
    | nil => exact absurd hne (by decide)
    | cons d ds =>
      rw [List.all_cons, Bool.and_eq_true] at hall
      unfold tokenize
      simp only [printAtom]
      rw [List.cons_append, List.dropWhile_cons]
      rw [show cIsSpace d = false from digit_not_space hall.1]
      simp only [Bool.false_eq_true, if_false]
      simp only [tok1]
      rw [if_pos (by rw [hall.1, Bool.true_or])]
      have hgd := grabDigits_append (d :: ds) 0 rest (by
        rw [List.all_cons, Bool.and_eq_true]; exact hall) hsep
      rw [List.cons_append] at hgd
      unfold parseNum
      split
      · rename_i heq
        injection heq with h1 h2
        exact absurd hall.1 (by rw [h1]; decide)
      · rename_i heq2
        rw [hgd]
        simp only [atomTok, Prod.mk.injEq, and_true]
        rw [show (digitVal (d :: ds) : Int) = ((d :: ds).foldl
          (fun a c => a * 10 + (c.toNat - 48)) 0 : Nat) from rfl]
        exact congrArg Token.num (wrap32_small
          (le_trans (by norm_num) (Int.natCast_nonneg _)) (by exact_mod_cast hlt))
  | var nm =>
    simp only [wfAtom, Bool.and_eq_true, decide_eq_true_eq] at ha
    obtain ⟨⟨hhead, hall⟩, hlen⟩ := ha
    cases nm with
    | nil => exact absurd hhead (by decide)
    | cons c nm =>
      simp only [Bool.or_eq_true, decide_eq_true_eq] at hhead
      obtain ⟨hnd, hnsp, hnm⟩ := identHead_facts hhead
      unfold tokenize
      simp only [printAtom]
      rw [List.cons_append, List.dropWhile_cons, hnsp]
      simp only [Bool.false_eq_true, if_false]
      simp only [tok1]
      rw [if_neg (by
        rw [hnd, Bool.false_or, Bool.and_eq_true, decide_eq_true_eq]
        rintro ⟨h1, -⟩
        exact hnm h1)]
      have hgi := grabIdent_append (c :: nm) 0 rest hall (by
        simpa using hlen) hsep
      rw [List.cons_append] at hgi
      split
      · rcases hhead with h | h <;> exact absurd h (by decide)
      · rcases hhead with h | h <;> exact absurd h (by decide)
      · rcases hhead with h | h <;> exact absurd h (by decide)
      · rcases hhead with h | h <;> exact absurd h (by decide)
      · rcases hhead with h | h <;> exact absurd h (by decide)
      · rcases hhead with h | h <;> exact absurd h (by decide)
      · rcases hhead with h | h <;> exact absurd h (by decide)
      · rcases hhead with h | h <;> exact absurd h (by decide)
      · rcases hhead with h | h <;> exact absurd h (by decide)
      · rcases hhead with h | h <;> exact absurd h (by decide)
      · rw [if_pos (by
          rcases hhead with h | h
          · rw [h, Bool.true_or]
          · rw [h]; decide)]
        rw [hgi]
        rfl

/-- A space-separated `+` reads back as the add token. -/
theorem tokenize_plus (t : List Char) :
    tokenize (' ' :: '+' :: ' ' :: t) = (Token.addT, ' ' :: t) := rfl

/-- A space-separated `-` (not followed by a digit) reads back as the sub
token. -/
theorem tokenize_minus (t : List Char) :
    tokenize (' ' :: '-' :: ' ' :: t) = (Token.subT, ' ' :: t) := rfl

/-- A space-separated relational operator reads back as its token. -/
theorem tokenize_rel (o : RelOp) (t : List Char) :
    tokenize (' ' :: (relChars o ++ ' ' :: t)) = (relTok o, ' ' :: t) := by
  cases o <;> rfl

/-- A space-separated logical operator reads back as its token. -/
theorem tokenize_log (lo : LogOp) (t : List Char) :
    tokenize (' ' :: (logChars lo ++ ' ' :: t)) = (logTok lo, ' ' :: t) := by
  cases lo <;> rfl

/-- A leading space does not change eval_value. -/
theorem eval_value_cons_space (vars : VarTable) (s : List Char) :
    eval_value vars (' ' :: s) = eval_value vars s := by
  rw [eval_value]
  conv_rhs => rw [eval_value]
  simp only [tokenize_cons_space]

/-- A leading space does not change eval_condition. -/
theorem eval_condition_cons_space (vars : VarTable) (s : List Char) :
    eval_condition vars (' ' :: s) = eval_condition vars s := by
  rw [eval_condition]
  conv_rhs => rw [eval_condition]
  simp only [eval_value_cons_space]

/-- A printed well-formed value followed by a boundary whose next token is
not an arithmetic operator evaluates to its right-recursive denotation,
leaving the boundary untouched. -/
theorem eval_value_print (vars : VarTable) (rest : List Char)
    (hsep : headSep rest = true)
    (hna : (tokenize rest).1 ≠ Token.addT) (hns : (tokenize rest).1 ≠ Token.subT) :
    ∀ v : Val, wfVal v = true →
      eval_value vars (printVal v ++ rest) = (denoteVal vars v, rest) := by
  intro v
  induction v with
  | atom a =>
    intro hv
    rw [show printVal (Val.atom a) ++ rest = printAtom a ++ rest from rfl]
    rw [eval_value]
    rw [tokenize_print_atom a rest hv hsep]
    simp only []
    rw [if_neg hna, if_neg hns]
    cases a <;> rfl
  | add a v ih =>
    intro hv
    obtain ⟨ha, hv2⟩ := (Bool.and_eq_true _ _) ▸ hv
    rw [show printVal (Val.add a v) ++ rest =
      printAtom a ++ (' ' :: '+' :: ' ' :: (printVal v ++ rest)) by simp [printVal]]
    rw [eval_value]
    rw [tokenize_print_atom a (' ' :: '+' :: ' ' :: (printVal v ++ rest)) ha (by rfl)]
    simp only []
    rw [tokenize_plus]
    simp only []
    rw [if_pos trivial]
    rw [eval_value_cons_space, ih hv2]
    cases a <;> rfl
  | sub a v ih =>
    intro hv
    obtain ⟨ha, hv2⟩ := (Bool.and_eq_true _ _) ▸ hv
    rw [show printVal (Val.sub a v) ++ rest =
      printAtom a ++ (' ' :: '-' :: ' ' :: (printVal v ++ rest)) by simp [printVal]]
    rw [eval_value]
    rw [tokenize_print_atom a (' ' :: '-' :: ' ' :: (printVal v ++ rest)) ha (by rfl)]
    simp only []
    rw [tokenize_minus]
    simp only []
    rw [if_neg (by decide), if_pos trivial]
    rw [eval_value_cons_space, ih hv2]
    cases a <;> rfl

/-- A printed well-formed condition evaluates to its strictly
right-recursive denotation. -/
theorem eval_condition_print (vars : VarTable) :
    ∀ c : Cond, wfCond c = true → eval_condition vars (printCond c) = denoteCond vars c := by
  intro c
  induction c with
  | cmp l o r =>
    intro hc
    obtain ⟨hl, hr⟩ := (Bool.and_eq_true _ _) ▸ hc
    rw [eval_condition]
    rw [show printCond (Cond.cmp l o r) =
      printVal l ++ (' ' :: (relChars o ++ ' ' :: printVal r)) from rfl]
    have hL := eval_value_print vars (' ' :: (relChars o ++ ' ' :: printVal r)) (by rfl)
      (by rw [tokenize_rel]; cases o <;> exact fun h => Token.noConfusion h)
      (by rw [tokenize_rel]; cases o <;> exact fun h => Token.noConfusion h) l hl
    rw [hL]
    simp only []
    rw [tokenize_rel]
    simp only []
    rw [if_neg (by cases o <;> decide)]
    rw [eval_value_cons_space]
    have hR := eval_value_print vars [] (by rfl) (by decide) (by decide) r hr
    rw [List.append_nil] at hR
    rw [hR]
    simp only []
    rw [if_neg (by decide), if_neg (by decide)]
    cases o <;> rfl
  | seq l o r lo rest ih =>
    intro hc
    obtain ⟨hlr, hrest⟩ := (Bool.and_eq_true _ _) ▸ hc
    obtain ⟨hl, hr⟩ := (Bool.and_eq_true _ _) ▸ hlr
    rw [eval_condition]
    rw [show printCond (Cond.seq l o r lo rest) =
      printVal l ++ (' ' :: (relChars o ++ ' ' ::
        (printVal r ++ ' ' :: (logChars lo ++ ' ' :: printCond rest)))) from rfl]
    have hL := eval_value_print vars
      (' ' :: (relChars o ++ ' ' ::
        (printVal r ++ ' ' :: (logChars lo ++ ' ' :: printCond rest)))) (by rfl)
      (by rw [tokenize_rel]; cases o <;> exact fun h => Token.noConfusion h)
      (by rw [tokenize_rel]; cases o <;> exact fun h => Token.noConfusion h) l hl
    rw [hL]
    simp only []
    rw [tokenize_rel]
    simp only []
    rw [if_neg (by cases o <;> decide)]
    rw [eval_value_cons_space]
    have hR := eval_value_print vars
      (' ' :: (logChars lo ++ ' ' :: printCond rest)) (by rfl)
      (by rw [tokenize_log]; cases lo <;> exact fun h => Token.noConfusion h)
      (by rw [tokenize_log]; cases lo <;> exact fun h => Token.noConfusion h) r hr
    rw [hR]
    simp only []
    rw [tokenize_log]
    simp only []
    cases lo with
    | and =>
      simp only [logTok]
      rw [if_pos trivial]
      rw [eval_condition_cons_space, ih hrest]
      cases o <;> rfl
    | or =>
      simp only [logTok]
      rw [if_neg (by decide), if_pos trivial]
      rw [eval_condition_cons_space, ih hrest]
      cases o <;> rfl

/-- C6: for every grammatical condition (represented by its parse
structure, printed with single-space token separation) and every
blackboard, eval_condition computes the strictly right-recursive
denotation - `v1 relop v2 LOGICAL rest` evaluates to `(v1 relop v2)
LOGICAL (evaluation of rest)` with no precedence between `&&` and `||` -
and eval_value computes the right-recursive value denotation, in which `+`
and `-` associate to the right, so `a - b + c` evaluates to `a - (b + c)`. -/
theorem C6_right_recursive_eval (vars : VarTable) (c : Cond) (v : Val)
    (hc : wfCond c = true) (hv : wfVal v = true) :
    eval_condition vars (printCond c) = denoteCond vars c ∧
    eval_value vars (printVal v) = (denoteVal vars v, []) := by
  refine ⟨eval_condition_print vars c hc, ?_⟩
  have h := eval_value_print vars [] (by rfl) (by decide) (by decide) v hv
  rwa [List.append_nil] at h

/-- C6 (witness): the right-recursion theorem applied to the condition
"1 > 0 || x == 7" and the value "5 - 3 + 1"; the printed value evaluates
to 5 - (3 + 1) = 1 (a left-associative reading would give 3). -/
theorem C6_witness :
    wfCond (Cond.seq (Val.atom (Atom.num ['1'])) RelOp.gt (Val.atom (Atom.num ['0']))
        LogOp.or (Cond.cmp (Val.atom (Atom.var ['x'])) RelOp.eq
          (Val.atom (Atom.num ['7'])))) = true ∧
    wfVal (Val.sub (Atom.num ['5'])
        (Val.add (Atom.num ['3']) (Val.atom (Atom.num ['1'])))) = true ∧
    (eval_condition [] (printCond (Cond.seq (Val.atom (Atom.num ['1'])) RelOp.gt
          (Val.atom (Atom.num ['0'])) LogOp.or
          (Cond.cmp (Val.atom (Atom.var ['x'])) RelOp.eq (Val.atom (Atom.num ['7']))))) =
        denoteCond [] (Cond.seq (Val.atom (Atom.num ['1'])) RelOp.gt
          (Val.atom (Atom.num ['0'])) LogOp.or
          (Cond.cmp (Val.atom (Atom.var ['x'])) RelOp.eq (Val.atom (Atom.num ['7'])))) ∧
      eval_value [] (printVal (Val.sub (Atom.num ['5'])
          (Val.add (Atom.num ['3']) (Val.atom (Atom.num ['1']))))) =
        (denoteVal [] (Val.sub (Atom.num ['5'])
          (Val.add (Atom.num ['3']) (Val.atom (Atom.num ['1'])))), [])) ∧
    denoteCond [] (Cond.seq (Val.atom (Atom.num ['1'])) RelOp.gt
        (Val.atom (Atom.num ['0'])) LogOp.or
        (Cond.cmp (Val.atom (Atom.var ['x'])) RelOp.eq (Val.atom (Atom.num ['7'])))) =
      true ∧
    denoteVal [] (Val.sub (Atom.num ['5'])
        (Val.add (Atom.num ['3']) (Val.atom (Atom.num ['1'])))) = 1 :=
  ⟨by decide, by decide,
   C6_right_recursive_eval []
     (Cond.seq (Val.atom (Atom.num ['1'])) RelOp.gt (Val.atom (Atom.num ['0']))
       LogOp.or (Cond.cmp (Val.atom (Atom.var ['x'])) RelOp.eq
         (Val.atom (Atom.num ['7']))))
     (Val.sub (Atom.num ['5']) (Val.add (Atom.num ['3']) (Val.atom (Atom.num ['1']))))
     (by decide) (by decide),
   by decide, by decide⟩
